import Mathlib

/-!
Shallow embedding of `godel_noether/src/noether_path_planner.cpp` and proofs
about its segment-sequencing and margin-trimming algorithms.

Positions (`Eigen::Vector3d` translations) are modelled as points of
`EuclideanSpace ℝ (Fin 3)`; rotations (`Eigen::Quaterniond` /
rotation parts of `Eigen::Affine3d`) as quaternions given by their four real
coefficients.  Floating-point `double` arithmetic is idealised as real
arithmetic.  A function that can throw (`std::logic_error`) returns an
`Option`, with `none` standing for the thrown exception.
-/

open Classical

namespace GodelNoether

/-- Position vectors in 3-d, as in `Eigen::Vector3d`. -/
abbrev R3 : Type := EuclideanSpace ℝ (Fin 3)

/-- Squared Euclidean distance of two position vectors:
`(a - b).squaredNorm()` in Eigen. -/
noncomputable def sq3 (u v : R3) : ℝ := ∑ i, (u i - v i) ^ 2

/-- Constructor for concrete position vectors. -/
noncomputable def v3 (a b c : ℝ) : R3 := ![a, b, c]

/-- Structure `PathEndPoints` (source lines 26-33). -/
structure PathEndPoints where
  a : R3
  b : R3
  id : ℕ

/-- Default record for out-of-range accesses. -/
noncomputable def EP0 : PathEndPoints := ⟨0, 0, 0⟩

/-- Structure `SequencePoint` (source lines 40-44). -/
structure SequencePoint where
  id : ℕ
  from_a : Bool

/-- The output of `Eigen::SelfAdjointEigenSolver`: eigenvalues and unit
eigenvectors. -/
structure EigenSystem where
  vals : Fin 4 → ℝ
  vecs : Fin 4 → Fin 4 → ℝ

noncomputable def dot4 (u v : Fin 4 → ℝ) : ℝ := ∑ i, u i * v i

/-- The sort key of the comparator at source lines 251-256. -/
noncomputable def minY (p : PathEndPoints) : ℝ := min (p.a 1) (p.b 1)

/-- The per-step decision of the greedy walk (source lines 273-283): starting
from the end position of the previous step, pick A when strictly nearer in
squared distance than B. -/
noncomputable def greedyFlags : PathEndPoints → Bool → List PathEndPoints → List Bool
  | _, _, [] => []
  | prev, fa, rec :: rest =>
    (if sq3 rec.a (if fa then prev.b else prev.a) < sq3 rec.b (if fa then prev.b else prev.a)
     then true else false) ::
      greedyFlags rec
        (if sq3 rec.a (if fa then prev.b else prev.a) < sq3 rec.b (if fa then prev.b else prev.a)
         then true else false) rest

/-- The per-record `from_a` flags of the whole walk: the first step is always
`from_a = true` (source line 271). -/
noncomputable def seqFlags : List PathEndPoints → List Bool
  | [] => []
  | rec :: rest => true :: greedyFlags rec true rest

noncomputable def mkSeqPoints : List Bool → ℕ → List SequencePoint
  | [], _ => []
  | b :: bs, i => ⟨i, b⟩ :: mkSeqPoints bs (i + 1)

/-- The `SequencePoint` list built by the loop at source lines 267-283:
record index paired with its `from_a` flag. -/
noncomputable def seqPoints (end_points : List PathEndPoints) : List SequencePoint :=
  mkSeqPoints (seqFlags end_points) 0

/-- A quaternion by its coefficients, in the `x, y, z, w` order of
`Eigen::Quaterniond::coeffs()`. -/
structure Quat4 where
  x : ℝ
  y : ℝ
  z : ℝ
  w : ℝ

/-- Hamilton quaternion product, as in `Eigen::Quaterniond` composition. -/
noncomputable def qmul (p q : Quat4) : Quat4 :=
  ⟨p.w * q.x + p.x * q.w + p.y * q.z - p.z * q.y,
   p.w * q.y - p.x * q.z + p.y * q.w + p.z * q.x,
   p.w * q.z + p.x * q.y - p.y * q.x + p.z * q.w,
   p.w * q.w - p.x * q.x - p.y * q.y - p.z * q.z⟩

/-- A pose (`Eigen::Affine3d` with pure rotation part): position plus rotation. -/
structure Pose where
  pos : R3
  rot : Quat4


/-- Function `pointDistance`: Euclidean distance of the translation parts of two poses. -/
noncomputable def pointDistance (a b : Pose) : ℝ := dist a.pos b.pos

/-- Default pose used to give out-of-range vector accesses a value. -/
noncomputable def P0 : Pose := ⟨0, ⟨0, 0, 0, 1⟩⟩

/-- Function `segmentLength`: sum of consecutive-sample distances. -/
noncomputable def segmentLength : List Pose → ℝ
  | [] => 0
  | [_] => 0
  | a :: b :: t => pointDistance b a + segmentLength (b :: t)

/-- The tolerance `eps = 1e-3` used by `approxEqual`. -/
noncomputable def mEps : ℝ := 1 / 1000

/-- Comparison `approxEqual(a, b, eps = 1e-3)`. -/
def approxEqual (a b : ℝ) : Prop := |a - b| < mEps

/-- The forward cut-point scan of `applyMargins` (the loop at source lines
336-355), also used for the reverse scan on the reversed segment.  `prev` is
sample `i-1`, `rest` the samples from `i` on, `dtg` the running
`distance_to_go`.  Returns `(forward_index, forward_dist)`; `none` models the
loop finishing with `forward_index == 0`, which the code turns into a thrown
`std::logic_error`. -/
noncomputable def forwardScanAux : Pose → List Pose → ℝ → ℕ → Option (ℕ × ℝ)
  | _, [], _, _ => none
  | prev, p :: ps, dtg, i =>
    if approxEqual (pointDistance p prev) dtg then some (i, 0)
    else if dtg > pointDistance p prev then
      forwardScanAux p ps (dtg - pointDistance p prev) (i + 1)
    else some (i, dtg)

/-- The forward scan started on a whole segment with `distance_to_go = offset`
and `i = 1`. -/
noncomputable def forwardScan (segment : List Pose) (offset : ℝ) : Option (ℕ × ℝ) :=
  match segment with
  | [] => none
  | a :: t => forwardScanAux a t offset 1

/-- The local interpolation helper of `applyMargins`:
`start + dist * (end - start).normalized()`, keeping the start rotation. -/
noncomputable def interp (a b : Pose) (d : ℝ) : Pose :=
  ⟨a.pos + d • (‖b.pos - a.pos‖⁻¹ • (b.pos - a.pos)), a.rot⟩

/-- Function `applyMargins` on one segment (source lines 325-404).  `none` models the
thrown `std::logic_error`. -/
noncomputable def applyMargins (segment : List Pose) (offset : ℝ) : Option (List Pose) :=
  if segmentLength segment < 2 * offset then some segment
  else
    match forwardScan segment offset with
    | none => none
    | some (f, fdist) =>
      match forwardScan segment.reverse offset with
      | none => none
      | some (j, rdist) =>
        let r := segment.length - 1 - j
        some ((if fdist ≠ 0 then [interp (segment.getD (f - 1) P0) (segment.getD f P0) fdist]
               else [])
          ++ ((segment.drop f).take (r + 1 - f))
          ++ (if rdist ≠ 0 then [interp (segment.getD (r + 1) P0) (segment.getD r P0) rdist]
              else []))

/-- Arc length from sample `0` to sample `m` of a segment. -/
noncomputable def arcTo (l : List Pose) (m : ℕ) : ℝ := segmentLength (l.take (m + 1))

/-- A pose on the x-axis with identity orientation, for concrete tests. -/
noncomputable def pX (a : ℝ) : Pose := ⟨v3 a 0 0, ⟨0, 0, 0, 1⟩⟩

noncomputable def qconj (q : Quat4) : Quat4 := ⟨-q.x, -q.y, -q.z, q.w⟩

noncomputable def qnormSq (q : Quat4) : ℝ := q.x ^ 2 + q.y ^ 2 + q.z ^ 2 + q.w ^ 2

noncomputable def qscale (c : ℝ) (q : Quat4) : Quat4 := ⟨c * q.x, c * q.y, c * q.z, c * q.w⟩

/-- Quaternion inverse as in `Eigen::Quaterniond::inverse()`: conjugate over squared norm. -/
noncomputable def qinv (q : Quat4) : Quat4 := qscale (qnormSq q)⁻¹ (qconj q)

noncomputable def qneg (q : Quat4) : Quat4 := ⟨-q.x, -q.y, -q.z, -q.w⟩

/-- Rotation of a vector by a (unit) quaternion: vector part of `q v q̄`. -/
noncomputable def qrot (q : Quat4) (v : R3) : R3 :=
  v3 (qmul (qmul q ⟨v 0, v 1, v 2, 0⟩) (qconj q)).x
     (qmul (qmul q ⟨v 0, v 1, v 2, 0⟩) (qconj q)).y
     (qmul (qmul q ⟨v 0, v 1, v 2, 0⟩) (qconj q)).z

/-- The identity rotation. -/
noncomputable def qId : Quat4 := ⟨0, 0, 0, 1⟩

/-- The rotation `Eigen::AngleAxisd(M_PI, Eigen::Vector3d::UnitZ())` as a quaternion:
`(sin(pi/2) = 1)` on the z axis, `cos(pi/2) = 0` scalar part. -/
noncomputable def qZ180 : Quat4 := ⟨0, 0, 1, 0⟩

noncomputable def toEndPointsAux (q : Quat4) : List (List Pose) → ℕ → List PathEndPoints
  | [], _ => []
  | s :: ss, i =>
    ⟨qrot (qinv q) (s.getD 0 P0).pos, qrot (qinv q) (s.getLastD P0).pos, i⟩ ::
      toEndPointsAux q ss (i + 1)

/-- Function `toEndPoints` (source lines 90-108): project each segment's first and last
positions by the inverse of the reference rotation, remembering the index. -/
noncomputable def toEndPoints (segments : List (List Pose)) (ref_rotation : Quat4) :
    List PathEndPoints :=
  toEndPointsAux ref_rotation segments 0

/-- Function `reversePathAndPoses` (source lines 110-120): reverse the pose order and
post-multiply every pose rotation by a 180-degree turn about its local Z. -/
noncomputable def reversePathAndPoses (path : List Pose) : List Pose :=
  path.reverse.map (fun p => ⟨p.pos, qmul p.rot qZ180⟩)

/-- Function `makeSequence` (source lines 130-149). -/
noncomputable def makeSequence (inp : List (List Pose)) (seqs : List SequencePoint)
    (end_points : List PathEndPoints) : List (List Pose) :=
  seqs.map (fun s =>
    if s.from_a then inp.getD (end_points.getD s.id EP0).id []
    else reversePathAndPoses (inp.getD (end_points.getD s.id EP0).id []))

/-- Squared first-to-last displacement of a segment, the quantity maximised by
`longestSegment`. -/
noncomputable def endpointSq (s : List Pose) : ℝ := sq3 (s.getD 0 P0).pos (s.getLastD P0).pos

noncomputable def longestSegmentAux : List (List Pose) → ℕ → ℕ × ℝ → ℕ × ℝ
  | [], _, st => st
  | s :: ss, i, st =>
    longestSegmentAux ss (i + 1) (if endpointSq s > st.2 then (i, endpointSq s) else st)

/-- Function `longestSegment` (source lines 212-227): running maximum initialised to
index 0 and value 0, updated on strictly greater squared displacement. -/
noncomputable def longestSegment (segments : List (List Pose)) : ℕ :=
  (longestSegmentAux segments 0 (0, 0)).1

/-- Quaternion coefficients in `Eigen` order `(x, y, z, w)`. -/
noncomputable def coeffs (q : Quat4) : Fin 4 → ℝ := ![q.x, q.y, q.z, q.w]

/-- The 4x4 matrix `Q * Qᵗ` accumulated by `average` (source lines 161-168). -/
noncomputable def averageMatrix (qs : List Quat4) : Fin 4 → Fin 4 → ℝ :=
  fun i j => (qs.map (fun q => coeffs q i * coeffs q j)).sum

/-- Modelled from the spec: the contract of the external
`Eigen::SelfAdjointEigenSolver` (not part of this repository), whose
`eigenvalues()`/`eigenvectors()` output `average` consumes — unit
eigenvectors with their eigenvalues, forming a spectral decomposition of the
symmetric input matrix. -/
def IsEigenDecompOf (E : EigenSystem) (M : Fin 4 → Fin 4 → ℝ) : Prop :=
  (∀ k, dot4 (E.vecs k) (E.vecs k) = 1) ∧
  (∀ k i, (∑ j, M i j * E.vecs k j) = E.vals k * E.vecs k i) ∧
  (∀ i j, M i j = ∑ k, E.vals k * (E.vecs k i * E.vecs k j))

/-- The max-eigenvalue search loop of `average` (source lines 175-184):
running maximum initialised to index 0 and value 0.0, strict greater-than. -/
noncomputable def selectMaxIdx (vals : Fin 4 → ℝ) : Fin 4 :=
  (([0, 1, 2, 3] : List (Fin 4)).foldl
    (fun st i => if vals i > st.2 then (i, vals i) else st) (0, 0)).1

/-- Function `average` (source lines 159-189), with the eigen-solver output passed in
as `E`: take the eigenvector of the largest eigenvalue and reinterpret its
coefficients as a quaternion (`Quaterniond(c3, c0, c1, c2)`). -/
noncomputable def average (E : EigenSystem) : Quat4 :=
  ⟨E.vecs (selectMaxIdx E.vals) 0, E.vecs (selectMaxIdx E.vals) 1,
   E.vecs (selectMaxIdx E.vals) 2, E.vecs (selectMaxIdx E.vals) 3⟩

/-- The quaternion list fed to `average` by `sequence` via
`averageQuaternion` (source lines 192-204 and 243-245): the rotations of the
poses of the longest segment. -/
noncomputable def averageQuaternionInput (inp : List (List Pose)) : List Quat4 :=
  (inp.getD (longestSegment inp) []).map Pose.rot

/-- The sorted end point records (`std::sort` with strict comparator
`min(a.y,b.y) < min(a.y,b.y)`, modelled by an insertion sort on the matching
total order; ties, which `std::sort` orders unspecifiedly, come out in input
order here). -/
noncomputable def sortedEndPoints (inp : List (List Pose)) (q : Quat4) :
    List PathEndPoints :=
  List.insertionSort (fun u v => minY u ≤ minY v) (toEndPoints inp q)

/-- Function `sequence` (source lines 233-287), parameterised by the eigen-solver
output `E` consumed inside `averageQuaternion`. -/
noncomputable def sequence (E : EigenSystem) (inp : List (List Pose)) : List (List Pose) :=
  match inp with
  | [] => []
  | _ :: _ =>
    makeSequence inp (seqPoints (sortedEndPoints inp (average E)))
      (sortedEndPoints inp (average E))

/-- The multiset of sample positions of a segment. -/
noncomputable def posMS (l : List Pose) : Multiset R3 := (l.map Pose.pos : List R3)

/-- The segments of the spec's concrete three-lane scenario. -/
noncomputable def seg7a : List Pose := [⟨v3 0 0 0, qId⟩, ⟨v3 1 0 0, qId⟩]

noncomputable def seg7b : List Pose := [⟨v3 0 1 0, qId⟩, ⟨v3 1 1 0, qId⟩]

noncomputable def seg7c : List Pose := [⟨v3 0 2 0, qId⟩, ⟨v3 1 2 0, qId⟩]

noncomputable def inp7 : List (List Pose) := [seg7a, seg7b, seg7c]

/-! ### Theorems -/

theorem v3_zero : v3 0 0 0 = 0 := by
  funext i
  fin_cases i <;> rfl

theorem pointDistance_nonneg (a b : Pose) : 0 ≤ pointDistance a b := dist_nonneg

theorem segmentLength_nil : segmentLength [] = 0 := rfl

theorem segmentLength_single (a : Pose) : segmentLength [a] = 0 := rfl

theorem segmentLength_cons_cons (a b : Pose) (t : List Pose) :
    segmentLength (a :: b :: t) = pointDistance b a + segmentLength (b :: t) := rfl

theorem segmentLength_nonneg (l : List Pose) : 0 ≤ segmentLength l := by
  induction l with
  | nil => simp [segmentLength]
  | cons a t ih =>
    cases t with
    | nil => simp [segmentLength]
    | cons b t2 =>
      rw [segmentLength_cons_cons]
      have := pointDistance_nonneg b a
      linarith

/-- Euclidean distance of two concrete 3-vectors, in coordinates. -/
theorem dist_v3 (x y : R3) :
    dist x y = Real.sqrt ((x 0 - y 0) ^ 2 + (x 1 - y 1) ^ 2 + (x 2 - y 2) ^ 2) := by
  rw [EuclideanSpace.dist_eq, Fin.sum_univ_three]
  simp [Real.dist_eq, sq_abs]

theorem applyMargins_of_short (seg : List Pose) (off : ℝ)
    (h : segmentLength seg < 2 * off) : applyMargins seg off = some seg := by
  unfold applyMargins
  rw [if_pos h]

/-- Claim C3: a segment whose total arc length is under `2 * offset` is
returned unchanged by `applyMargins` (the identity branch at line 328). -/
theorem applyMargins_short_identity (seg : List Pose) (off : ℝ)
    (h : segmentLength seg < 2 * off) : applyMargins seg off = some seg :=
  applyMargins_of_short seg off h

/-- Witness for C3 at a concrete two-pose segment of length 1 with offset 1. -/
theorem applyMargins_short_identity_witness :
    segmentLength [⟨v3 0 0 0, ⟨0, 0, 0, 1⟩⟩, ⟨v3 1 0 0, ⟨0, 0, 0, 1⟩⟩] < 2 * (1 : ℝ) ∧
      applyMargins [⟨v3 0 0 0, ⟨0, 0, 0, 1⟩⟩, ⟨v3 1 0 0, ⟨0, 0, 0, 1⟩⟩] 1 =
        some [⟨v3 0 0 0, ⟨0, 0, 0, 1⟩⟩, ⟨v3 1 0 0, ⟨0, 0, 0, 1⟩⟩] := by
  have hd : pointDistance (⟨v3 1 0 0, ⟨0, 0, 0, 1⟩⟩ : Pose) ⟨v3 0 0 0, ⟨0, 0, 0, 1⟩⟩ = 1 := by
    rw [pointDistance, dist_v3]
    norm_num [v3]
  have hlen : segmentLength [⟨v3 0 0 0, ⟨0, 0, 0, 1⟩⟩, ⟨v3 1 0 0, ⟨0, 0, 0, 1⟩⟩] = 1 := by
    rw [segmentLength_cons_cons, hd, segmentLength_single]
    ring
  have hlt : segmentLength [⟨v3 0 0 0, ⟨0, 0, 0, 1⟩⟩, ⟨v3 1 0 0, ⟨0, 0, 0, 1⟩⟩] < 2 * (1 : ℝ) := by
    rw [hlen]; norm_num
  exact ⟨hlt, applyMargins_short_identity _ _ hlt⟩

/-- Counterexample to claim C4 as stated: on a single-pose segment with
offset 0 the identity branch is not taken (`0 < 2*0` fails) and the forward
scan never runs, so `applyMargins` throws (`none`) instead of returning the
segment. -/
theorem applyMargins_single_zero_offset_throws :
    applyMargins [⟨v3 0 0 0, ⟨0, 0, 0, 1⟩⟩] 0 = none := by
  unfold applyMargins
  rw [if_neg (by rw [segmentLength_single]; norm_num)]
  rfl

/-- Claim C4, amended: a single-pose segment is returned unchanged for every
strictly positive offset (it has arc length 0, hence falls into the too-short
identity branch). -/
theorem applyMargins_single_identity (p : Pose) (off : ℝ) (h : 0 < off) :
    applyMargins [p] off = some [p] :=
  applyMargins_of_short [p] off (by rw [segmentLength_single]; linarith)

/-- Witness for the amended C4 at a concrete pose and offset. -/
theorem applyMargins_single_identity_witness :
    (0 : ℝ) < 1 ∧ applyMargins [⟨v3 2 3 4, ⟨0, 0, 0, 1⟩⟩] 1 = some [⟨v3 2 3 4, ⟨0, 0, 0, 1⟩⟩] :=
  ⟨by norm_num, applyMargins_single_identity _ 1 (by norm_num)⟩

theorem pointDistance_comm (a b : Pose) : pointDistance a b = pointDistance b a := dist_comm _ _

theorem mEps_pos : (0 : ℝ) < mEps := by rw [mEps]; norm_num

theorem arcTo_zero (l : List Pose) : arcTo l 0 = 0 := by
  cases l <;> rfl

theorem arcTo_cons_succ (a b : Pose) (t : List Pose) (m : ℕ) :
    arcTo (a :: b :: t) (m + 1) = pointDistance b a + arcTo (b :: t) m := rfl

theorem arcTo_one (a b : Pose) (t : List Pose) :
    arcTo (a :: b :: t) 1 = pointDistance b a := by
  rw [arcTo_cons_succ, arcTo_zero]; ring

/-- The forward scan succeeds whenever the remaining distance-to-go is at most
the total length of the remaining polyline (and there is at least one more
sample). -/
theorem forwardScanAux_isSome :
    ∀ (rest : List Pose) (prev : Pose) (dtg : ℝ) (i : ℕ), rest ≠ [] →
      dtg ≤ segmentLength (prev :: rest) → (forwardScanAux prev rest dtg i).isSome = true := by
  intro rest
  induction rest with
  | nil => intro _ _ _ h _; exact absurd rfl h
  | cons p ps ih =>
    intro prev dtg i _ hle
    rw [forwardScanAux]
    by_cases happ : approxEqual (pointDistance p prev) dtg
    · rw [if_pos happ]; rfl
    · rw [if_neg happ]
      by_cases hgt : dtg > pointDistance p prev
      · rw [if_pos hgt]
        have hsplit : segmentLength (prev :: p :: ps) =
            pointDistance p prev + segmentLength (p :: ps) := rfl
        have hps : ps ≠ [] := by
          intro hnil
          subst hnil
          rw [hsplit, segmentLength_single] at hle
          linarith
        exact ih p (dtg - pointDistance p prev) (i + 1) hps (by rw [hsplit] at hle; linarith)
      · rw [if_neg hgt]; rfl

/-- Characterisation of a successful forward scan with strictly positive
distance-to-go: the cut point (sample `f` itself when `fdist = 0`, otherwise
the interpolated point at `fdist` past sample `f - 1`) sits at arc length
within `mEps` of the requested distance-to-go. -/
theorem forwardScanAux_spec :
    ∀ (rest : List Pose) (prev : Pose) (dtg : ℝ) (i f : ℕ) (fd : ℝ), 0 < dtg →
      forwardScanAux prev rest dtg i = some (f, fd) →
      ∃ k, f = i + k ∧ k < rest.length ∧ 0 ≤ fd ∧
        fd ≤ pointDistance ((prev :: rest).getD (k + 1) P0) ((prev :: rest).getD k P0) ∧
        |(if fd = 0 then arcTo (prev :: rest) (k + 1) else arcTo (prev :: rest) k + fd) - dtg|
          < mEps := by
  intro rest
  induction rest with
  | nil => intro prev dtg i f fd _ h; exact absurd h (by rw [forwardScanAux]; simp)
  | cons p ps ih =>
    intro prev dtg i f fd hdtg h
    rw [forwardScanAux] at h
    by_cases happ : approxEqual (pointDistance p prev) dtg
    · rw [if_pos happ, Option.some.injEq, Prod.mk.injEq] at h
      obtain ⟨hf, hfd⟩ := h
      refine ⟨0, hf.symm, by simp, by rw [← hfd], ?_, ?_⟩
      · rw [← hfd]
        exact pointDistance_nonneg _ _
      · rw [if_pos hfd.symm]
        simpa [arcTo_one] using happ
    · rw [if_neg happ] at h
      by_cases hgt : dtg > pointDistance p prev
      · rw [if_pos hgt] at h
        obtain ⟨k, hk1, hk2, hk3, hk4, hk5⟩ :=
          ih p (dtg - pointDistance p prev) (i + 1) f fd (by linarith) h
        refine ⟨k + 1, by omega, by simp; omega, hk3, ?_, ?_⟩
        · simpa [List.getD_cons_succ] using hk4
        · have harc1 : arcTo (prev :: p :: ps) (k + 1 + 1) =
            pointDistance p prev + arcTo (p :: ps) (k + 1) := arcTo_cons_succ _ _ _ _
          have harc2 : arcTo (prev :: p :: ps) (k + 1) =
            pointDistance p prev + arcTo (p :: ps) k := arcTo_cons_succ _ _ _ _
          by_cases hz : fd = 0
          · rw [if_pos hz] at hk5 ⊢
            rw [harc1]
            have : pointDistance p prev + arcTo (p :: ps) (k + 1) - dtg =
                arcTo (p :: ps) (k + 1) - (dtg - pointDistance p prev) := by ring
            rw [this]
            exact hk5
          · rw [if_neg hz] at hk5 ⊢
            rw [harc2]
            have : pointDistance p prev + arcTo (p :: ps) k + fd - dtg =
                arcTo (p :: ps) k + fd - (dtg - pointDistance p prev) := by ring
            rw [this]
            exact hk5
      · rw [if_neg hgt, Option.some.injEq, Prod.mk.injEq] at h
        obtain ⟨hf, hfd⟩ := h
        refine ⟨0, hf.symm, by simp, by rw [← hfd]; linarith, ?_, ?_⟩
        · rw [← hfd]
          simpa using not_lt.mp hgt
        · have hz : ¬fd = 0 := by rw [← hfd]; linarith
          rw [if_neg hz, arcTo_zero, ← hfd]
          simpa using mEps_pos

/-- Splitting a polyline at an interior sample splits its length. -/
theorem segmentLength_split :
    ∀ (A : List Pose) (x a : Pose) (B : List Pose),
      segmentLength (x :: A ++ a :: B) =
        segmentLength (x :: A ++ [a]) + segmentLength (a :: B) := by
  intro A
  induction A with
  | nil =>
    intro x a B
    cases B with
    | nil => simp [segmentLength]
    | cons b B2 =>
      show segmentLength (x :: a :: b :: B2) = segmentLength [x, a] + segmentLength (a :: b :: B2)
      rw [segmentLength_cons_cons, segmentLength_cons_cons x a [], segmentLength_single]
      ring
  | cons y A2 ih =>
    intro x a B
    show segmentLength (x :: y :: (A2 ++ a :: B)) =
      segmentLength (x :: y :: (A2 ++ [a])) + segmentLength (a :: B)
    rw [segmentLength_cons_cons]
    have h3 : (y :: (A2 ++ a :: B)) = (y :: A2) ++ a :: B := rfl
    rw [h3, ih]
    rw [segmentLength_cons_cons x y (A2 ++ [a])]
    rw [List.cons_append]
    ring

theorem getLastD_cons_cons (x y : Pose) (A : List Pose) :
    (x :: y :: A).getLastD P0 = (y :: A).getLastD P0 := by
  simp [List.getLastD_eq_getLast?, List.getLast?]

/-- Appending one sample to a polyline adds the distance from its last sample. -/
theorem segmentLength_concat_last :
    ∀ (A : List Pose) (x a : Pose),
      segmentLength (x :: A ++ [a]) =
        segmentLength (x :: A) + pointDistance a ((x :: A).getLastD P0) := by
  intro A
  induction A with
  | nil =>
    intro x a
    show segmentLength [x, a] = segmentLength [x] + pointDistance a ([x].getLastD P0)
    rw [segmentLength_cons_cons, segmentLength_single, segmentLength_single]
    have hx : ([x].getLastD P0) = x := rfl
    rw [hx]
    ring
  | cons y A2 ih =>
    intro x a
    show segmentLength (x :: y :: (A2 ++ [a])) =
      segmentLength (x :: y :: A2) + pointDistance a ((x :: y :: A2).getLastD P0)
    rw [segmentLength_cons_cons, show (y :: (A2 ++ [a])) = (y :: A2) ++ [a] from rfl, ih,
      segmentLength_cons_cons, getLastD_cons_cons]
    ring

/-- Reversing a polyline preserves its length. -/
theorem segmentLength_reverse (l : List Pose) : segmentLength l.reverse = segmentLength l := by
  induction l with
  | nil => rfl
  | cons a t ih =>
    cases t with
    | nil => rfl
    | cons b t2 =>
      have h1 : (a :: b :: t2).reverse = (b :: t2).reverse ++ [a] := by simp
      obtain ⟨x, A, hxA⟩ : ∃ x A, (b :: t2).reverse = x :: A := by
        cases hrev : (b :: t2).reverse with
        | nil => exact absurd hrev (by simp)
        | cons x A => exact ⟨x, A, rfl⟩
      have hlast : ((b :: t2).reverse).getLastD P0 = b := by
        rw [List.getLastD_eq_getLast?, List.getLast?_reverse]
        rfl
      rw [h1, hxA, segmentLength_concat_last, ← hxA, ih, segmentLength_cons_cons, hlast,
        pointDistance_comm]
      ring

theorem getD_eq_getElem_of_lt (l : List Pose) (i : ℕ) (h : i < l.length) :
    l.getD i P0 = l[i] := by
  simp [List.getD_eq_getElem?_getD, List.getElem?_eq_getElem h]

theorem arcTo_of_length_le (l : List Pose) (m : ℕ) (h : l.length ≤ m + 1) :
    arcTo l m = segmentLength l := by
  rw [arcTo, List.take_of_length_le h]

theorem take_nonempty_decomp (l : List Pose) (m : ℕ) (hm : 0 < m) (h : m ≤ l.length) :
    ∃ x A, l.take m = x :: A := by
  cases htake : l.take m with
  | nil =>
    have : (l.take m).length = m := List.length_take_of_le h
    rw [htake] at this
    simp at this
    omega
  | cons x A => exact ⟨x, A, rfl⟩

theorem getLastD_take_succ (l : List Pose) (j : ℕ) (h : j < l.length) :
    (l.take (j + 1)).getLastD P0 = l.getD j P0 := by
  rw [List.getLastD_eq_getLast?, List.getLast?_eq_getElem?]
  have hlen : (l.take (j + 1)).length = j + 1 :=
    List.length_take_of_le (by omega)
  rw [hlen]
  simp only [Nat.add_sub_cancel]
  rw [List.getElem?_take_of_lt (by omega), List.getElem?_eq_getElem h]
  rw [getD_eq_getElem_of_lt l j h]
  rfl

theorem arcTo_succ_eq (l : List Pose) (j : ℕ) (h : j + 1 < l.length) :
    arcTo l (j + 1) = arcTo l j + pointDistance (l.getD (j + 1) P0) (l.getD j P0) := by
  have htake : l.take (j + 1 + 1) = l.take (j + 1) ++ [l[j + 1]] := by
    rw [List.take_succ, List.getElem?_eq_getElem h]
    rfl
  obtain ⟨x, A, hxA⟩ := take_nonempty_decomp l (j + 1) (by omega) (by omega)
  rw [arcTo, htake, hxA, segmentLength_concat_last, ← hxA, getLastD_take_succ l j (by omega)]
  rw [getD_eq_getElem_of_lt l (j + 1) h]
  rfl

theorem segmentLength_arcTo_add_drop (l : List Pose) (m : ℕ) (h : m < l.length) :
    segmentLength l = arcTo l m + segmentLength (l.drop m) := by
  cases m with
  | zero => rw [arcTo_zero, List.drop_zero]; ring
  | succ k =>
    have hdrop : l.drop (k + 1) = l[k + 1] :: l.drop (k + 2) := List.drop_eq_getElem_cons h
    obtain ⟨x, A, hxA⟩ := take_nonempty_decomp l (k + 1) (by omega) (by omega)
    have hsplit : l = (x :: A) ++ l[k + 1] :: l.drop (k + 2) := by
      rw [← hxA, ← hdrop, List.take_append_drop]
    have htake : l.take (k + 1 + 1) = l.take (k + 1) ++ [l[k + 1]] := by
      rw [List.take_succ, List.getElem?_eq_getElem h]
      rfl
    calc segmentLength l = segmentLength ((x :: A) ++ l[k + 1] :: l.drop (k + 2)) := by
          rw [← hsplit]
      _ = segmentLength ((x :: A) ++ [l[k + 1]]) + segmentLength (l[k + 1] :: l.drop (k + 2)) :=
          segmentLength_split A x l[k + 1] (l.drop (k + 2))
      _ = arcTo l (k + 1) + segmentLength (l.drop (k + 1)) := by
          rw [arcTo, htake, hxA, hdrop]

theorem segmentLength_slice (l : List Pose) (f r : ℕ) (hfr : f ≤ r) (hr : r < l.length) :
    segmentLength ((l.drop f).take (r + 1 - f)) = arcTo l r - arcTo l f := by
  have hTlen : (l.take (r + 1)).length = r + 1 := List.length_take_of_le (by omega)
  have hf : f < (l.take (r + 1)).length := by rw [hTlen]; omega
  have hmain := segmentLength_arcTo_add_drop (l.take (r + 1)) f hf
  have h1 : arcTo (l.take (r + 1)) f = arcTo l f := by
    rw [arcTo, arcTo, List.take_take, Nat.min_eq_left (by omega : f + 1 ≤ r + 1)]
  have h2 : (l.take (r + 1)).drop f = (l.drop f).take (r + 1 - f) := by
    rw [List.take_drop, show f + (r + 1 - f) = r + 1 from by omega]
  have h3 : segmentLength (l.take (r + 1)) = arcTo l r := rfl
  rw [h1, h2, h3] at hmain
  linarith

theorem arcTo_mono (l : List Pose) (i j : ℕ) (hij : i ≤ j) (hj : j < l.length) :
    arcTo l i ≤ arcTo l j := by
  have := segmentLength_slice l i j hij hj
  have := segmentLength_nonneg ((l.drop i).take (j + 1 - i))
  linarith

/-- The straight-line distance between two samples is at most the arc length
between them. -/
theorem dist_le_arc (l : List Pose) (i j : ℕ) (hij : i ≤ j) (hj : j < l.length) :
    dist (l.getD i P0).pos (l.getD j P0).pos ≤ arcTo l j - arcTo l i := by
  induction j, hij using Nat.le_induction with
  | base => simp
  | succ j hij ih =>
    have hj2 : j < l.length := by omega
    have h1 := ih hj2
    have h2 := arcTo_succ_eq l j hj
    have h3 : dist (l.getD i P0).pos (l.getD (j + 1) P0).pos ≤
        dist (l.getD i P0).pos (l.getD j P0).pos +
          dist (l.getD j P0).pos (l.getD (j + 1) P0).pos := dist_triangle _ _ _
    have h4 : pointDistance (l.getD (j + 1) P0) (l.getD j P0) =
        dist (l.getD j P0).pos (l.getD (j + 1) P0).pos := dist_comm _ _
    linarith

theorem interp_pos_eq (a b : Pose) (d : ℝ) :
    (interp a b d).pos = a.pos + (d * ‖b.pos - a.pos‖⁻¹) • (b.pos - a.pos) := by
  rw [interp, smul_smul]

/-- Distance from the interpolation start to the interpolated point is the
requested distance. -/
theorem dist_interp_left (a b : Pose) (d : ℝ) (h0 : 0 ≤ d) (h1 : d ≤ pointDistance a b) :
    dist a.pos (interp a b d).pos = d := by
  have hD : pointDistance a b = ‖b.pos - a.pos‖ := by
    rw [pointDistance, dist_eq_norm, norm_sub_rev]
  by_cases hz : ‖b.pos - a.pos‖ = 0
  · have hd0 : d = 0 := le_antisymm (by rw [hD, hz] at h1; exact h1) h0
    have hv : b.pos - a.pos = 0 := norm_eq_zero.mp hz
    rw [interp_pos_eq, hv, smul_zero, add_zero, dist_self, hd0]
  · have hDpos : 0 < ‖b.pos - a.pos‖ := lt_of_le_of_ne (norm_nonneg _) (Ne.symm hz)
    rw [interp_pos_eq, dist_eq_norm]
    have hcalc : a.pos - (a.pos + (d * ‖b.pos - a.pos‖⁻¹) • (b.pos - a.pos)) =
        (-(d * ‖b.pos - a.pos‖⁻¹)) • (b.pos - a.pos) := by
      module
    rw [hcalc, norm_smul, Real.norm_eq_abs, abs_neg,
      abs_of_nonneg (by positivity : (0 : ℝ) ≤ d * ‖b.pos - a.pos‖⁻¹)]
    field_simp

/-- Distance from the interpolated point to the interpolation target. -/
theorem dist_interp_right (a b : Pose) (d : ℝ) (h0 : 0 ≤ d) (h1 : d ≤ pointDistance a b) :
    dist (interp a b d).pos b.pos = pointDistance a b - d := by
  have hD : pointDistance a b = ‖b.pos - a.pos‖ := by
    rw [pointDistance, dist_eq_norm, norm_sub_rev]
  by_cases hz : ‖b.pos - a.pos‖ = 0
  · have hd0 : d = 0 := le_antisymm (by rw [hD, hz] at h1; exact h1) h0
    have hv : b.pos - a.pos = 0 := norm_eq_zero.mp hz
    have hab : a.pos = b.pos := by
      have := sub_eq_zero.mp hv
      exact this.symm
    rw [interp_pos_eq, hv, smul_zero, add_zero, hab, dist_self, hd0, hD, hz]
    ring
  · have hDpos : 0 < ‖b.pos - a.pos‖ := lt_of_le_of_ne (norm_nonneg _) (Ne.symm hz)
    rw [interp_pos_eq, dist_eq_norm]
    have hcalc : a.pos + (d * ‖b.pos - a.pos‖⁻¹) • (b.pos - a.pos) - b.pos =
        (d * ‖b.pos - a.pos‖⁻¹ - 1) • (b.pos - a.pos) := by
      module
    rw [hcalc, norm_smul, Real.norm_eq_abs]
    have hle1 : d * ‖b.pos - a.pos‖⁻¹ ≤ 1 := by
      rw [hD] at h1
      calc d * ‖b.pos - a.pos‖⁻¹ ≤ ‖b.pos - a.pos‖ * ‖b.pos - a.pos‖⁻¹ :=
            mul_le_mul_of_nonneg_right h1 (by positivity)
        _ = 1 := mul_inv_cancel₀ hz
    rw [abs_of_nonpos (by linarith), hD]
    have : -(d * ‖b.pos - a.pos‖⁻¹ - 1) * ‖b.pos - a.pos‖ =
        ‖b.pos - a.pos‖ - d * (‖b.pos - a.pos‖⁻¹ * ‖b.pos - a.pos‖) := by ring
    rw [this, inv_mul_cancel₀ hz, mul_one]

/-- Distance between the two interpolated points synthesised on the same
edge, one from each endpoint. -/
theorem dist_interp_same_edge (a b : Pose) (d1 d2 : ℝ)
    (h10 : 0 ≤ d1) (h11 : d1 ≤ pointDistance a b)
    (h20 : 0 ≤ d2) (h21 : d2 ≤ pointDistance a b) :
    dist (interp a b d1).pos (interp b a d2).pos = |d1 + d2 - pointDistance a b| := by
  have hD : pointDistance a b = ‖b.pos - a.pos‖ := by
    rw [pointDistance, dist_eq_norm, norm_sub_rev]
  by_cases hz : ‖b.pos - a.pos‖ = 0
  · have hd1 : d1 = 0 := le_antisymm (by rw [hD, hz] at h11; exact h11) h10
    have hd2 : d2 = 0 := le_antisymm (by rw [hD, hz] at h21; exact h21) h20
    have hv : b.pos - a.pos = 0 := norm_eq_zero.mp hz
    have hv2 : a.pos - b.pos = 0 := by
      rw [sub_eq_zero]
      exact (sub_eq_zero.mp hv).symm
    rw [interp_pos_eq, interp_pos_eq, hv, hv2, smul_zero, smul_zero, add_zero, add_zero]
    rw [dist_eq_norm]
    have : a.pos - b.pos = 0 := hv2
    rw [this, norm_zero, hd1, hd2, hD, hz]
    norm_num
  · have hDpos : 0 < ‖b.pos - a.pos‖ := lt_of_le_of_ne (norm_nonneg _) (Ne.symm hz)
    have hnorm2 : ‖a.pos - b.pos‖ = ‖b.pos - a.pos‖ := norm_sub_rev _ _
    rw [interp_pos_eq, interp_pos_eq, hnorm2, dist_eq_norm]
    have hcalc : a.pos + (d1 * ‖b.pos - a.pos‖⁻¹) • (b.pos - a.pos) -
        (b.pos + (d2 * ‖b.pos - a.pos‖⁻¹) • (a.pos - b.pos)) =
        ((d1 + d2) * ‖b.pos - a.pos‖⁻¹ - 1) • (b.pos - a.pos) := by
      module
    rw [hcalc, norm_smul, Real.norm_eq_abs]
    have habs : |(d1 + d2) * ‖b.pos - a.pos‖⁻¹ - 1| * ‖b.pos - a.pos‖ =
        |((d1 + d2) * ‖b.pos - a.pos‖⁻¹ - 1) * ‖b.pos - a.pos‖| := by
      rw [abs_mul, abs_of_nonneg (le_of_lt hDpos)]
    rw [habs]
    have : ((d1 + d2) * ‖b.pos - a.pos‖⁻¹ - 1) * ‖b.pos - a.pos‖ =
        (d1 + d2) * (‖b.pos - a.pos‖⁻¹ * ‖b.pos - a.pos‖) - ‖b.pos - a.pos‖ := by ring
    rw [this, inv_mul_cancel₀ hz, mul_one, hD]

/-- Segment-level characterisation of a successful forward scan.  The cut arc
length (`arcTo seg f` for an exact-match cut, `arcTo seg (f-1) + fd` for an
interpolated one) is within `mEps` of the requested offset. -/
theorem forwardScan_spec (seg : List Pose) (off : ℝ) (f : ℕ) (fd : ℝ)
    (hoff : 0 < off) (h : forwardScan seg off = some (f, fd)) :
    1 ≤ f ∧ f < seg.length ∧ 0 ≤ fd ∧
      fd ≤ pointDistance (seg.getD f P0) (seg.getD (f - 1) P0) ∧
      |(if fd = 0 then arcTo seg f else arcTo seg (f - 1) + fd) - off| < mEps := by
  cases seg with
  | nil => exact absurd h (by rw [forwardScan]; simp)
  | cons a t =>
    rw [forwardScan] at h
    obtain ⟨k, hk1, hk2, hk3, hk4, hk5⟩ := forwardScanAux_spec t a off 1 f fd hoff h
    have hf : f = k + 1 := by omega
    subst hf
    refine ⟨by omega, by simp; omega, hk3, ?_, ?_⟩
    · simpa using hk4
    · simpa using hk5

theorem getD_reverse (l : List Pose) (m : ℕ) (hm : m < l.length) :
    l.reverse.getD m P0 = l.getD (l.length - 1 - m) P0 := by
  rw [getD_eq_getElem_of_lt _ _ (by simpa using hm),
    getD_eq_getElem_of_lt _ _ (by omega : l.length - 1 - m < l.length)]
  simp

theorem arcTo_reverse (l : List Pose) (m : ℕ) (hm : m < l.length) :
    arcTo l.reverse m = segmentLength l - arcTo l (l.length - 1 - m) := by
  have hsplit := segmentLength_arcTo_add_drop l.reverse m (by simpa using hm)
  have hdrop : l.reverse.drop m = (l.take (l.length - m)).reverse := List.drop_reverse
  have h2 : segmentLength (l.reverse.drop m) = arcTo l (l.length - 1 - m) := by
    rw [hdrop, segmentLength_reverse, arcTo,
      show l.length - 1 - m + 1 = l.length - m from by omega]
  rw [segmentLength_reverse] at hsplit
  linarith [hsplit, h2]

theorem slice_decomp (seg : List Pose) (f r : ℕ) (hfr : f ≤ r) (hr : r < seg.length) :
    (seg.drop f).take (r + 1 - f) = seg.getD f P0 :: (seg.drop (f + 1)).take (r - f) := by
  rw [List.drop_eq_getElem_cons (show f < seg.length by omega),
    show r + 1 - f = (r - f) + 1 from by omega, List.take_succ_cons,
    getD_eq_getElem_of_lt seg f (by omega)]

theorem slice_getLastD (seg : List Pose) (f r : ℕ) (hfr : f ≤ r) (hr : r < seg.length) :
    ((seg.drop f).take (r + 1 - f)).getLastD P0 = seg.getD r P0 := by
  rw [List.getLastD_eq_getLast?, List.getLast?_eq_getElem?]
  have hlen : ((seg.drop f).take (r + 1 - f)).length = r + 1 - f := by
    rw [List.length_take, List.length_drop]
    omega
  rw [hlen, show r + 1 - f - 1 = r - f from by omega,
    List.getElem?_take_of_lt (by omega : r - f < r + 1 - f), List.getElem?_drop,
    show f + (r - f) = r from by omega, List.getElem?_eq_getElem hr,
    getD_eq_getElem_of_lt seg r hr]
  rfl

/-- Length of the rebuilt segment when the two cuts are in index order
(`f ≤ r`): it is exactly the distance between the reverse cut arc position and
the forward cut arc position. -/
theorem rebuild_length_inorder (seg : List Pose) (f r : ℕ) (fd rd : ℝ)
    (hf1 : 1 ≤ f) (hfr : f ≤ r) (hr : r + 1 < seg.length)
    (hfd0 : 0 ≤ fd) (hfdle : fd ≤ pointDistance (seg.getD f P0) (seg.getD (f - 1) P0))
    (hrd0 : 0 ≤ rd) (hrdle : rd ≤ pointDistance (seg.getD r P0) (seg.getD (r + 1) P0)) :
    segmentLength
      ((if fd ≠ 0 then [interp (seg.getD (f - 1) P0) (seg.getD f P0) fd] else [])
        ++ (seg.drop f).take (r + 1 - f)
        ++ (if rd ≠ 0 then [interp (seg.getD (r + 1) P0) (seg.getD r P0) rd] else []))
    = (if rd = 0 then arcTo seg r else arcTo seg (r + 1) - rd)
      - (if fd = 0 then arcTo seg f else arcTo seg (f - 1) + fd) := by
  have hmid := slice_decomp seg f r hfr (by omega)
  have hmlen : segmentLength ((seg.drop f).take (r + 1 - f)) = arcTo seg r - arcTo seg f :=
    segmentLength_slice seg f r hfr (by omega)
  have hmlast := slice_getLastD seg f r hfr (by omega)
  have harcf : arcTo seg f =
      arcTo seg (f - 1) + pointDistance (seg.getD f P0) (seg.getD (f - 1) P0) := by
    have := arcTo_succ_eq seg (f - 1) (by omega : f - 1 + 1 < seg.length)
    rw [show f - 1 + 1 = f from by omega] at this
    exact this
  have harcr : arcTo seg (r + 1) =
      arcTo seg r + pointDistance (seg.getD (r + 1) P0) (seg.getD r P0) :=
    arcTo_succ_eq seg r hr
  have hnsr : pointDistance (seg.getD f P0) (interp (seg.getD (f - 1) P0) (seg.getD f P0) fd) =
      pointDistance (seg.getD f P0) (seg.getD (f - 1) P0) - fd := by
    show dist _ _ = _
    rw [dist_comm, dist_interp_right _ _ fd hfd0 (by rw [pointDistance_comm]; exact hfdle),
      pointDistance_comm]
  have hner : pointDistance (interp (seg.getD (r + 1) P0) (seg.getD r P0) rd) (seg.getD r P0) =
      pointDistance (seg.getD r P0) (seg.getD (r + 1) P0) - rd := by
    show dist _ _ = _
    rw [dist_interp_right _ _ rd hrd0 (by rw [pointDistance_comm]; exact hrdle),
      pointDistance_comm]
  have hcommf : pointDistance (seg.getD f P0) (seg.getD (f - 1) P0) =
      pointDistance (seg.getD (f - 1) P0) (seg.getD f P0) := pointDistance_comm _ _
  have hcommr : pointDistance (seg.getD (r + 1) P0) (seg.getD r P0) =
      pointDistance (seg.getD r P0) (seg.getD (r + 1) P0) := pointDistance_comm _ _
  by_cases hfz : fd = 0 <;> by_cases hrz : rd = 0
  · rw [if_neg (by simp [hfz]), if_neg (by simp [hrz]), List.nil_append, List.append_nil,
      hmlen, if_pos hrz, if_pos hfz]
  · rw [if_neg (by simp [hfz]), if_pos hrz, List.nil_append, hmid, segmentLength_concat_last,
      ← hmid, hmlast, hmlen, hner, if_neg hrz, if_pos hfz]
    linarith [harcr]
  · rw [if_pos hfz, if_neg (by simp [hrz]), List.append_nil, List.singleton_append, hmid,
      segmentLength_cons_cons, ← hmid, hmlen, hnsr, if_pos hrz, if_neg hfz]
    linarith [harcf]
  · rw [if_pos hfz, if_pos hrz, List.singleton_append, hmid, segmentLength_concat_last,
      getLastD_cons_cons, segmentLength_cons_cons, ← hmid, hmlast, hmlen, hnsr, hner,
      if_neg hrz, if_neg hfz]
    linarith [harcf, harcr]

/-- Claim C2, amended: for strictly positive offset and a segment of length at
least `2 * offset`, any segment returned by `applyMargins` has arc length
within `2 * mEps` of `segmentLength seg - 2 * offset`.  (The `2 * mEps` slack
is due to the `approxEqual` exact-match branch, which may cut up to `mEps`
away from the exact offset on each side.) -/
theorem applyMargins_length_law (seg : List Pose) (off : ℝ) (out : List Pose)
    (hoff : 0 < off) (hL : 2 * off ≤ segmentLength seg)
    (hout : applyMargins seg off = some out) :
    |segmentLength out - (segmentLength seg - 2 * off)| < 2 * mEps := by
  unfold applyMargins at hout
  rw [if_neg (not_lt.mpr hL)] at hout
  cases hfs : forwardScan seg off with
  | none => rw [hfs] at hout; exact absurd hout (by simp)
  | some p =>
    obtain ⟨f, fd⟩ := p
    rw [hfs] at hout
    cases hrs : forwardScan seg.reverse off with
    | none => rw [hrs] at hout; exact absurd hout (by simp)
    | some q =>
      obtain ⟨j, rd⟩ := q
      rw [hrs] at hout
      simp only [Option.some.injEq] at hout
      obtain ⟨hf1, hfn, hfd0, hfdle, hfcut⟩ := forwardScan_spec seg off f fd hoff hfs
      obtain ⟨hj1, hjn, hrd0, hrdle0, hrcut0⟩ := forwardScan_spec seg.reverse off j rd hoff hrs
      rw [List.length_reverse] at hjn
      have hn2 : 2 ≤ seg.length := by omega
      set r := seg.length - 1 - j with hr_def
      have hrn : r + 1 < seg.length := by omega
      -- translate the reverse-scan data to indices of the original segment
      have hgr1 : seg.reverse.getD j P0 = seg.getD r P0 := by
        rw [getD_reverse seg j hjn]
      have hgr2 : seg.reverse.getD (j - 1) P0 = seg.getD (r + 1) P0 := by
        rw [getD_reverse seg (j - 1) (by omega)]
        congr 1
        omega
      have hrdle : rd ≤ pointDistance (seg.getD r P0) (seg.getD (r + 1) P0) := by
        rw [hgr1, hgr2] at hrdle0
        exact hrdle0
      have harc1 : arcTo seg.reverse j = segmentLength seg - arcTo seg r := by
        rw [arcTo_reverse seg j hjn]
      have harc2 : arcTo seg.reverse (j - 1) = segmentLength seg - arcTo seg (r + 1) := by
        rw [arcTo_reverse seg (j - 1) (by omega)]
        congr 2
        omega
      have hrcut : |(segmentLength seg -
          (if rd = 0 then arcTo seg r else arcTo seg (r + 1) - rd)) - off| < mEps := by
        by_cases hrz : rd = 0
        · rw [if_pos hrz]
          rw [if_pos hrz, harc1] at hrcut0
          exact hrcut0
        · rw [if_neg hrz]
          rw [if_neg hrz, harc2] at hrcut0
          have : segmentLength seg - (arcTo seg (r + 1) - rd) =
              segmentLength seg - arcTo seg (r + 1) + rd := by ring
          rw [this]
          exact hrcut0
      -- abbreviations for the two cut arc positions
      set cf := if fd = 0 then arcTo seg f else arcTo seg (f - 1) + fd with hcf_def
      set cr2 := if rd = 0 then arcTo seg r else arcTo seg (r + 1) - rd with hcr_def
      have harcf : arcTo seg f =
          arcTo seg (f - 1) + pointDistance (seg.getD f P0) (seg.getD (f - 1) P0) := by
        have := arcTo_succ_eq seg (f - 1) (by omega : f - 1 + 1 < seg.length)
        rw [show f - 1 + 1 = f from by omega] at this
        exact this
      have harcr : arcTo seg (r + 1) =
          arcTo seg r + pointDistance (seg.getD (r + 1) P0) (seg.getD r P0) :=
        arcTo_succ_eq seg r hrn
      have hcf_le : cf ≤ arcTo seg f := by
        rw [hcf_def]
        by_cases hfz : fd = 0
        · rw [if_pos hfz]
        · rw [if_neg hfz, harcf]
          linarith [hfdle]
      have hcf_ge : arcTo seg (f - 1) ≤ cf := by
        rw [hcf_def]
        by_cases hfz : fd = 0
        · rw [if_pos hfz, harcf]
          linarith [pointDistance_nonneg (seg.getD f P0) (seg.getD (f - 1) P0)]
        · rw [if_neg hfz]
          linarith
      have hcr_ge : arcTo seg r ≤ cr2 := by
        rw [hcr_def]
        by_cases hrz : rd = 0
        · rw [if_pos hrz]
        · rw [if_neg hrz, harcr]
          linarith [hrdle, pointDistance_comm (seg.getD (r + 1) P0) (seg.getD r P0)]
      have hcr_le : cr2 ≤ arcTo seg (r + 1) := by
        rw [hcr_def]
        by_cases hrz : rd = 0
        · rw [if_pos hrz, harcr]
          linarith [pointDistance_nonneg (seg.getD (r + 1) P0) (seg.getD r P0)]
        · rw [if_neg hrz]
          linarith
      rw [abs_lt] at hfcut hrcut
      by_cases hcase : f ≤ r
      · -- the two cuts are in index order: exact length computation
        have hlen : segmentLength out = cr2 - cf := by
          rw [← hout]
          exact rebuild_length_inorder seg f r fd rd hf1 hcase hrn hfd0 hfdle hrd0 hrdle
        rw [hlen, abs_lt]
        constructor <;> linarith
      · -- the cuts crossed: the middle of the rebuild is empty
        have hmid0 : (seg.drop f).take (r + 1 - f) = [] := by
          rw [show r + 1 - f = 0 from by omega]
          rfl
        have hfr1 : r + 1 ≤ f := by omega
        have hLlow : segmentLength seg - 2 * off ≤ (cf - off) + (segmentLength seg - cr2 - off) +
            (cr2 - cf) := by linarith
        by_cases hfz : fd = 0
        · -- no synthesised start point: the result has at most one sample
          have hcfcr : cr2 ≤ cf := by
            have h1 : arcTo seg (r + 1) ≤ arcTo seg f := arcTo_mono seg (r + 1) f hfr1 hfn
            have h2 : cf = arcTo seg f := by rw [hcf_def, if_pos hfz]
            linarith [hcr_le]
          have hzero : segmentLength out = 0 := by
            rw [← hout, if_neg (by simp [hfz]), hmid0]
            by_cases hrz : rd = 0
            · rw [if_neg (by simp [hrz])]
              rfl
            · rw [if_pos hrz]
              rfl
          rw [hzero, abs_lt]
          constructor <;> linarith
        · by_cases hrz : rd = 0
          · -- no synthesised end point: the result has at most one sample
            have hcfcr : cr2 ≤ cf := by
              have h1 : arcTo seg r ≤ arcTo seg (f - 1) :=
                arcTo_mono seg r (f - 1) (by omega) (by omega)
              have h2 : cr2 = arcTo seg r := by rw [hcr_def, if_pos hrz]
              linarith [hcf_ge]
            have hzero : segmentLength out = 0 := by
              rw [← hout, if_pos hfz, if_neg (by simp [hrz]), hmid0]
              rfl
            rw [hzero, abs_lt]
            constructor <;> linarith
          · -- both cut points synthesised: the result is the two-point segment
            have hout2 : out = [interp (seg.getD (f - 1) P0) (seg.getD f P0) fd,
                interp (seg.getD (r + 1) P0) (seg.getD r P0) rd] := by
              rw [← hout, if_pos hfz, if_pos hrz, hmid0]
              rfl
            have hs : segmentLength out =
                dist (interp (seg.getD (f - 1) P0) (seg.getD f P0) fd).pos
                  (interp (seg.getD (r + 1) P0) (seg.getD r P0) rd).pos := by
              rw [hout2, segmentLength_cons_cons, segmentLength_single, pointDistance,
                dist_comm]
              ring
            have hcf2 : cf = arcTo seg (f - 1) + fd := by rw [hcf_def, if_neg hfz]
            have hcr2' : cr2 = arcTo seg (r + 1) - rd := by rw [hcr_def, if_neg hrz]
            by_cases hadj : f = r + 1
            · -- both interpolated points lie on the same edge
              subst hadj
              have hseq : dist (interp (seg.getD (r + 1 - 1) P0) (seg.getD (r + 1) P0) fd).pos
                  (interp (seg.getD (r + 1) P0) (seg.getD r P0) rd).pos =
                  |fd + rd - pointDistance (seg.getD r P0) (seg.getD (r + 1) P0)| := by
                rw [show r + 1 - 1 = r from by omega]
                exact dist_interp_same_edge (seg.getD r P0) (seg.getD (r + 1) P0) fd rd hfd0
                  (by rw [pointDistance_comm]
                      rw [show r + 1 - 1 = r from by omega] at hfdle
                      exact hfdle)
                  hrd0 hrdle
              have hABS : segmentLength out = |cf - cr2| := by
                rw [hs, hseq, hcf2, hcr2']
                have heq : fd + rd - pointDistance (seg.getD r P0) (seg.getD (r + 1) P0) =
                    arcTo seg (r + 1 - 1) + fd - (arcTo seg (r + 1) - rd) := by
                  rw [show r + 1 - 1 = r from by omega, harcr,
                    pointDistance_comm (seg.getD (r + 1) P0) (seg.getD r P0)]
                  ring
                rw [heq]
              rcases abs_cases (cf - cr2) with ⟨habs, hsign⟩ | ⟨habs, hsign⟩
              · rw [hABS, habs, abs_lt]
                constructor <;> linarith
              · rw [hABS, habs, abs_lt]
                constructor <;> linarith
            · -- the crossed cuts skip at least one original sample
              have hfr2 : r + 1 ≤ f - 1 := by omega
              have hd1 : dist (seg.getD (f - 1) P0).pos
                  (interp (seg.getD (f - 1) P0) (seg.getD f P0) fd).pos = fd :=
                dist_interp_left _ _ fd hfd0 (by rw [pointDistance_comm]; exact hfdle)
              have hd2 : dist (seg.getD (r + 1) P0).pos
                  (interp (seg.getD (r + 1) P0) (seg.getD r P0) rd).pos = rd :=
                dist_interp_left _ _ rd hrd0 (by rw [pointDistance_comm]; exact hrdle)
              have hd3 : dist (seg.getD (r + 1) P0).pos (seg.getD (f - 1) P0).pos ≤
                  arcTo seg (f - 1) - arcTo seg (r + 1) :=
                dist_le_arc seg (r + 1) (f - 1) hfr2 (by omega)
              have htri : segmentLength out ≤ cf - cr2 := by
                rw [hs, hcf2, hcr2']
                have h4 := dist_triangle4
                  (interp (seg.getD (f - 1) P0) (seg.getD f P0) fd).pos
                  (seg.getD (f - 1) P0).pos
                  (seg.getD (r + 1) P0).pos
                  (interp (seg.getD (r + 1) P0) (seg.getD r P0) rd).pos
                rw [dist_comm] at hd1 hd3
                linarith [h4, hd1, hd2, hd3]
              have hsnn : 0 ≤ segmentLength out := segmentLength_nonneg out
              rw [abs_lt]
              constructor <;> linarith

theorem exists_cons_cons_of_two_le (l : List Pose) (h : 2 ≤ l.length) :
    ∃ x y t, l = x :: y :: t := by
  cases l with
  | nil => simp at h
  | cons x t1 =>
    cases t1 with
    | nil => simp at h
    | cons y t2 => exact ⟨x, y, t2, rfl⟩

/-- Claim C5, amended: on a segment with at least two poses whose arc length is
at least `2 * offset` (offset non-negative), both scans find a cut point, so
`applyMargins` never reaches the thrown `std::logic_error`. -/
theorem applyMargins_no_failure (seg : List Pose) (off : ℝ)
    (hn : 2 ≤ seg.length) (h0 : 0 ≤ off) (hL : 2 * off ≤ segmentLength seg) :
    (forwardScan seg off).isSome = true ∧ (forwardScan seg.reverse off).isSome = true ∧
      applyMargins seg off ≠ none := by
  have hoffL : off ≤ segmentLength seg := by linarith
  obtain ⟨x, y, t, hxy⟩ := exists_cons_cons_of_two_le seg hn
  have hfwd : (forwardScan seg off).isSome = true := by
    rw [hxy, forwardScan]
    exact forwardScanAux_isSome (y :: t) x off 1 (by simp) (by rw [← hxy]; exact hoffL)
  have hrevlen : 2 ≤ seg.reverse.length := by simpa using hn
  obtain ⟨x2, y2, t2, hxy2⟩ := exists_cons_cons_of_two_le seg.reverse hrevlen
  have hrev : (forwardScan seg.reverse off).isSome = true := by
    rw [hxy2, forwardScan]
    refine forwardScanAux_isSome (y2 :: t2) x2 off 1 (by simp) ?_
    rw [← hxy2, segmentLength_reverse]
    exact hoffL
  refine ⟨hfwd, hrev, ?_⟩
  obtain ⟨pf, hpf⟩ := Option.isSome_iff_exists.mp hfwd
  obtain ⟨pr, hpr⟩ := Option.isSome_iff_exists.mp hrev
  obtain ⟨f, fd⟩ := pf
  obtain ⟨j, rd⟩ := pr
  unfold applyMargins
  rw [if_neg (not_lt.mpr hL), hpf, hpr]
  simp

/-- Counterexample to claim C5 as stated: a single-pose segment with offset 0
satisfies `2 * offset ≤ total arc length` (`0 ≤ 0`), yet the forward scan
finds no cut point and `applyMargins` throws. -/
theorem applyMargins_single_zero_offset_scan_fails :
    2 * (0 : ℝ) ≤ segmentLength [⟨v3 5 0 0, ⟨0, 0, 0, 1⟩⟩] ∧
      forwardScan [⟨v3 5 0 0, ⟨0, 0, 0, 1⟩⟩] 0 = none ∧
      applyMargins [⟨v3 5 0 0, ⟨0, 0, 0, 1⟩⟩] 0 = none := by
  refine ⟨by rw [segmentLength_single]; norm_num, rfl, ?_⟩
  unfold applyMargins
  rw [if_neg (by rw [segmentLength_single]; norm_num)]
  rfl

theorem forwardScan_zero (a b : Pose) (t : List Pose) :
    forwardScan (a :: b :: t) 0 = some (1, 0) := by
  rw [forwardScan, forwardScanAux]
  by_cases happ : approxEqual (pointDistance b a) 0
  · rw [if_pos happ]
  · rw [if_neg happ, if_neg (by simp [not_lt.mpr (pointDistance_nonneg b a)])]

/-- Claim C10: with offset exactly 0 and at least two samples, `applyMargins`
is not the identity: both scans cut at the second sample from their end with
zero interpolation distance, and the result keeps exactly the original
samples `1 .. n-2`. -/
theorem applyMargins_zero_offset (seg : List Pose) (hn : 2 ≤ seg.length) :
    forwardScan seg 0 = some (1, 0) ∧
      forwardScan seg.reverse 0 = some (1, 0) ∧
      applyMargins seg 0 = some ((seg.drop 1).take (seg.length - 2)) ∧
      applyMargins seg 0 ≠ some seg := by
  obtain ⟨x, y, t, hxy⟩ := exists_cons_cons_of_two_le seg hn
  have hf : forwardScan seg 0 = some (1, 0) := by rw [hxy]; exact forwardScan_zero x y t
  obtain ⟨x2, y2, t2, hxy2⟩ := exists_cons_cons_of_two_le seg.reverse (by simpa using hn)
  have hr : forwardScan seg.reverse 0 = some (1, 0) := by
    rw [hxy2]; exact forwardScan_zero x2 y2 t2
  have hmain : applyMargins seg 0 = some ((seg.drop 1).take (seg.length - 2)) := by
    unfold applyMargins
    rw [if_neg (by simpa using not_lt.mpr (segmentLength_nonneg seg)), hf, hr]
    simp only [ne_eq, not_true_eq_false, if_false, Option.some.injEq]
    rw [show seg.length - 1 - 1 + 1 - 1 = seg.length - 2 from by omega]
    simp
  have hlen : ((seg.drop 1).take (seg.length - 2)).length = seg.length - 2 := by
    rw [List.length_take, List.length_drop]
    omega
  refine ⟨hf, hr, hmain, ?_⟩
  rw [hmain]
  intro hcontra
  rw [Option.some.injEq] at hcontra
  have := congrArg List.length hcontra
  rw [hlen] at this
  omega

/-- Witness for C10 at a concrete two-pose segment: the whole segment is
consumed, leaving the empty segment. -/
theorem applyMargins_zero_offset_witness :
    2 ≤ ([⟨v3 0 0 0, ⟨0, 0, 0, 1⟩⟩, ⟨v3 0 7 0, ⟨0, 0, 0, 1⟩⟩] : List Pose).length ∧
      applyMargins [⟨v3 0 0 0, ⟨0, 0, 0, 1⟩⟩, ⟨v3 0 7 0, ⟨0, 0, 0, 1⟩⟩] 0 = some [] ∧
      applyMargins [⟨v3 0 0 0, ⟨0, 0, 0, 1⟩⟩, ⟨v3 0 7 0, ⟨0, 0, 0, 1⟩⟩] 0 ≠
        some [⟨v3 0 0 0, ⟨0, 0, 0, 1⟩⟩, ⟨v3 0 7 0, ⟨0, 0, 0, 1⟩⟩] := by
  have h := applyMargins_zero_offset [⟨v3 0 0 0, ⟨0, 0, 0, 1⟩⟩, ⟨v3 0 7 0, ⟨0, 0, 0, 1⟩⟩]
    (by simp)
  refine ⟨by simp, ?_, h.2.2.2⟩
  have := h.2.2.1
  simpa using this

/-- Witness for the amended C5, at a concrete two-pose segment of length 1
with offset 1/4. -/
theorem applyMargins_no_failure_witness :
    2 ≤ ([⟨v3 0 0 0, ⟨0, 0, 0, 1⟩⟩, ⟨v3 1 0 0, ⟨0, 0, 0, 1⟩⟩] : List Pose).length ∧
      (0 : ℝ) ≤ 1 / 4 ∧
      2 * (1 / 4 : ℝ) ≤ segmentLength [⟨v3 0 0 0, ⟨0, 0, 0, 1⟩⟩, ⟨v3 1 0 0, ⟨0, 0, 0, 1⟩⟩] ∧
      applyMargins [⟨v3 0 0 0, ⟨0, 0, 0, 1⟩⟩, ⟨v3 1 0 0, ⟨0, 0, 0, 1⟩⟩] (1 / 4) ≠ none := by
  have hd : pointDistance (⟨v3 1 0 0, ⟨0, 0, 0, 1⟩⟩ : Pose) ⟨v3 0 0 0, ⟨0, 0, 0, 1⟩⟩ = 1 := by
    rw [pointDistance, dist_v3]
    norm_num [v3]
  have hlen : segmentLength [⟨v3 0 0 0, ⟨0, 0, 0, 1⟩⟩, ⟨v3 1 0 0, ⟨0, 0, 0, 1⟩⟩] = 1 := by
    rw [segmentLength_cons_cons, hd, segmentLength_single]
    ring
  have hL : 2 * (1 / 4 : ℝ) ≤ segmentLength [⟨v3 0 0 0, ⟨0, 0, 0, 1⟩⟩, ⟨v3 1 0 0, ⟨0, 0, 0, 1⟩⟩] := by
    rw [hlen]; norm_num
  exact ⟨by simp, by norm_num,
    hL, (applyMargins_no_failure _ (1 / 4) (by simp) (by norm_num) hL).2.2⟩

theorem pX_dist (a b : ℝ) : pointDistance (pX a) (pX b) = |a - b| := by
  rw [pX, pX, pointDistance, dist_v3]
  dsimp only
  have h0 : (v3 a 0 0) 0 = a := rfl
  have h1 : (v3 a 0 0) 1 = 0 := rfl
  have h2 : (v3 a 0 0) 2 = 0 := rfl
  have g0 : (v3 b 0 0) 0 = b := rfl
  have g1 : (v3 b 0 0) 1 = 0 := rfl
  have g2 : (v3 b 0 0) 2 = 0 := rfl
  rw [h0, h1, h2, g0, g1, g2]
  rw [show (a - b) ^ 2 + (0 - 0 : ℝ) ^ 2 + (0 - 0 : ℝ) ^ 2 = |a - b| ^ 2 from by
    rw [sq_abs]; ring]
  exact Real.sqrt_sq (abs_nonneg _)

/-- Counterexample to claim C2 as stated: with offset exactly 0 (a non-negative
real) and a 3-sample segment of length 2, the trimmed segment has length 0,
not within any small epsilon of `L - 2*offset = 2`. -/
theorem applyMargins_length_law_fails_at_zero :
    (0 : ℝ) ≤ 0 ∧
      2 * (0 : ℝ) ≤ segmentLength [pX 0, pX 1, pX 2] ∧
      applyMargins [pX 0, pX 1, pX 2] 0 = some [pX 1] ∧
      |segmentLength [pX 1] - (segmentLength [pX 0, pX 1, pX 2] - 2 * 0)| = 2 := by
  have hd01 : pointDistance (pX 1) (pX 0) = 1 := by rw [pX_dist]; norm_num
  have hd12 : pointDistance (pX 2) (pX 1) = 1 := by rw [pX_dist]; norm_num
  have hlen : segmentLength [pX 0, pX 1, pX 2] = 2 := by
    rw [segmentLength_cons_cons, hd01, segmentLength_cons_cons, hd12, segmentLength_single]
    ring
  have hfwd : forwardScan [pX 0, pX 1, pX 2] 0 = some (1, 0) := forwardScan_zero _ _ _
  have hrev : forwardScan ([pX 0, pX 1, pX 2].reverse) 0 = some (1, 0) := by
    rw [show ([pX 0, pX 1, pX 2].reverse) = [pX 2, pX 1, pX 0] from rfl]
    exact forwardScan_zero _ _ _
  have hmain : applyMargins [pX 0, pX 1, pX 2] 0 = some [pX 1] := by
    unfold applyMargins
    rw [if_neg (by rw [hlen]; norm_num), hfwd, hrev]
    norm_num
  refine ⟨le_refl 0, by rw [hlen]; norm_num, hmain, ?_⟩
  rw [segmentLength_single, hlen]
  norm_num

/-- Witness for the amended C2: the spec's margin scenario, a straight
4-sample segment at x = 0,1,2,3 trimmed with offset 1/2. -/
theorem applyMargins_length_law_witness :
    (0 : ℝ) < 1 / 2 ∧
      2 * (1 / 2 : ℝ) ≤ segmentLength [pX 0, pX 1, pX 2, pX 3] ∧
      applyMargins [pX 0, pX 1, pX 2, pX 3] (1 / 2) =
        some [interp (pX 0) (pX 1) (1 / 2), pX 1, pX 2, interp (pX 3) (pX 2) (1 / 2)] ∧
      |segmentLength [interp (pX 0) (pX 1) (1 / 2), pX 1, pX 2, interp (pX 3) (pX 2) (1 / 2)] -
        (segmentLength [pX 0, pX 1, pX 2, pX 3] - 2 * (1 / 2))| < 2 * mEps := by
  have hd01 : pointDistance (pX 1) (pX 0) = 1 := by rw [pX_dist]; norm_num
  have hd12 : pointDistance (pX 2) (pX 1) = 1 := by rw [pX_dist]; norm_num
  have hd23 : pointDistance (pX 3) (pX 2) = 1 := by rw [pX_dist]; norm_num
  have hd32 : pointDistance (pX 2) (pX 3) = 1 := by rw [pX_dist]; norm_num
  have hlen : segmentLength [pX 0, pX 1, pX 2, pX 3] = 3 := by
    rw [segmentLength_cons_cons, hd01, segmentLength_cons_cons, hd12,
      segmentLength_cons_cons, hd23, segmentLength_single]
    ring
  have hnap : ¬approxEqual 1 (1 / 2 : ℝ) := by
    rw [approxEqual, mEps, show (1 : ℝ) - 1 / 2 = 1 / 2 from by norm_num,
      abs_of_nonneg (by norm_num : (0 : ℝ) ≤ 1 / 2)]
    norm_num
  have hfwd : forwardScan [pX 0, pX 1, pX 2, pX 3] (1 / 2) = some (1, 1 / 2) := by
    rw [forwardScan, forwardScanAux, hd01, if_neg hnap, if_neg (by norm_num)]
  have hrev : forwardScan ([pX 0, pX 1, pX 2, pX 3].reverse) (1 / 2) = some (1, 1 / 2) := by
    rw [show ([pX 0, pX 1, pX 2, pX 3].reverse) = [pX 3, pX 2, pX 1, pX 0] from rfl,
      forwardScan, forwardScanAux, hd32]
    rw [pointDistance_comm] at hd23
    rw [if_neg hnap, if_neg (by norm_num)]
  have hres : applyMargins [pX 0, pX 1, pX 2, pX 3] (1 / 2) =
      some [interp (pX 0) (pX 1) (1 / 2), pX 1, pX 2, interp (pX 3) (pX 2) (1 / 2)] := by
    unfold applyMargins
    rw [if_neg (by rw [hlen]; norm_num), hfwd, hrev]
    norm_num
  have hL : 2 * (1 / 2 : ℝ) ≤ segmentLength [pX 0, pX 1, pX 2, pX 3] := by
    rw [hlen]; norm_num
  exact ⟨by norm_num, hL, hres,
    applyMargins_length_law _ (1 / 2) _ (by norm_num) hL hres⟩

theorem getD_eq_of_lt {α : Type} (l : List α) (d : α) (i : ℕ) (h : i < l.length) :
    l.getD i d = l[i] := by
  simp [List.getD_eq_getElem?_getD, List.getElem?_eq_getElem h]

theorem getD_mem_of_lt {α : Type} (l : List α) (d : α) (i : ℕ) (h : i < l.length) :
    l.getD i d ∈ l := by
  rw [getD_eq_of_lt l d i h]
  exact List.getElem_mem h

theorem greedyFlags_length :
    ∀ (rest : List PathEndPoints) (prev : PathEndPoints) (fa : Bool),
      (greedyFlags prev fa rest).length = rest.length := by
  intro rest
  induction rest with
  | nil => intro prev fa; rfl
  | cons rec rest2 ih =>
    intro prev fa
    rw [greedyFlags]
    simp only [List.length_cons]
    rw [ih]

theorem seqFlags_length (ep : List PathEndPoints) : (seqFlags ep).length = ep.length := by
  cases ep with
  | nil => rfl
  | cons rec rest =>
    rw [seqFlags]
    simp only [List.length_cons]
    rw [greedyFlags_length]

theorem mkSeqPoints_length : ∀ (bs : List Bool) (i : ℕ), (mkSeqPoints bs i).length = bs.length := by
  intro bs
  induction bs with
  | nil => intro i; rfl
  | cons b bs2 ih =>
    intro i
    rw [mkSeqPoints]
    simp only [List.length_cons]
    rw [ih]

theorem toEndPointsAux_length :
    ∀ (ss : List (List Pose)) (q : Quat4) (i : ℕ), (toEndPointsAux q ss i).length = ss.length := by
  intro ss
  induction ss with
  | nil => intro q i; rfl
  | cons s ss2 ih =>
    intro q i
    rw [toEndPointsAux]
    simp only [List.length_cons]
    rw [ih]

theorem mkSeqPoints_map_id {β : Type} (G : ℕ → β) :
    ∀ (bs : List Bool) (i : ℕ),
      (mkSeqPoints bs i).map (fun sp => G sp.id) = (List.range' i bs.length).map G := by
  intro bs
  induction bs with
  | nil => intro i; rfl
  | cons b bs2 ih =>
    intro i
    rw [mkSeqPoints, List.length_cons, List.range'_succ, List.map_cons, List.map_cons, ih]

theorem mkSeqPoints_mem_id :
    ∀ (bs : List Bool) (i : ℕ) (sp : SequencePoint),
      sp ∈ mkSeqPoints bs i → i ≤ sp.id ∧ sp.id < i + bs.length := by
  intro bs
  induction bs with
  | nil => intro i sp h; exact absurd h (by rw [mkSeqPoints]; simp)
  | cons b bs2 ih =>
    intro i sp h
    rw [mkSeqPoints, List.mem_cons] at h
    rcases h with h | h
    · subst h
      simp
    · have := ih (i + 1) sp h
      constructor <;> [omega; (simp only [List.length_cons]; omega)]

theorem toEndPointsAux_map_id {β : Type} (G : ℕ → β) :
    ∀ (ss : List (List Pose)) (q : Quat4) (i : ℕ),
      (toEndPointsAux q ss i).map (fun rec => G rec.id) = (List.range' i ss.length).map G := by
  intro ss
  induction ss with
  | nil => intro q i; rfl
  | cons s ss2 ih =>
    intro q i
    rw [toEndPointsAux, List.length_cons, List.range'_succ, List.map_cons, List.map_cons, ih]

theorem toEndPointsAux_mem_id :
    ∀ (ss : List (List Pose)) (q : Quat4) (i : ℕ) (rec : PathEndPoints),
      rec ∈ toEndPointsAux q ss i → i ≤ rec.id ∧ rec.id < i + ss.length := by
  intro ss
  induction ss with
  | nil => intro q i rec h; exact absurd h (by rw [toEndPointsAux]; simp)
  | cons s ss2 ih =>
    intro q i rec h
    rw [toEndPointsAux, List.mem_cons] at h
    rcases h with h | h
    · subst h
      simp
    · have := ih q (i + 1) rec h
      constructor <;> [omega; (simp only [List.length_cons]; omega)]

theorem range'_map_getD {α β : Type} (G : α → β) (d : α) :
    ∀ (l : List α) (i : ℕ) (full : List α), full.drop i = l →
      (List.range' i l.length).map (fun k => G (full.getD k d)) = l.map G := by
  intro l
  induction l with
  | nil => intro i full _; rfl
  | cons x xs ih =>
    intro i full hdrop
    have hx : full.getD i d = x := by
      have h0 : full[i]? = some x := by
        have := List.getElem?_drop full i 0
        rw [hdrop] at this
        simpa using this.symm
      simp [List.getD_eq_getElem?_getD, h0]
    have hdrop2 : full.drop (i + 1) = xs := by
      have : full.drop (i + 1) = (full.drop i).drop 1 := by
        rw [List.drop_drop]
      rw [this, hdrop]
      rfl
    rw [List.length_cons, List.range'_succ, List.map_cons, List.map_cons, hx, ih (i + 1) full hdrop2]

theorem posMS_reverse (t : List Pose) : posMS (reversePathAndPoses t) = posMS t := by
  rw [posMS, reversePathAndPoses, List.map_map, posMS]
  have h1 : (Pose.pos ∘ fun p => (⟨p.pos, qmul p.rot qZ180⟩ : Pose)) = Pose.pos := rfl
  rw [h1, List.map_reverse]
  exact Multiset.coe_reverse _

/-- Claim C1: for every non-empty input, `sequence` (with any eigen-solver
output `E`) returns as many segments as it was given, the multiset of
per-segment position multisets is unchanged (no segment dropped, duplicated,
or altered in its positions), and every output segment is an input segment
kept as-is or reversed. -/
theorem sequence_perm (E : EigenSystem) (inp : List (List Pose)) (hne : inp ≠ []) :
    (sequence E inp).length = inp.length ∧
    (((sequence E inp).map posMS : List (Multiset R3)) : Multiset (Multiset R3)) =
      ((inp.map posMS : List (Multiset R3)) : Multiset (Multiset R3)) ∧
    ∀ s ∈ sequence E inp, ∃ t ∈ inp, s = t ∨ s = reversePathAndPoses t := by
  obtain ⟨s0, rest, hcons⟩ : ∃ s0 rest, inp = s0 :: rest := by
    cases inp with
    | nil => exact absurd rfl hne
    | cons s0 rest => exact ⟨s0, rest, rfl⟩
  have hseq : sequence E inp = makeSequence inp (seqPoints (sortedEndPoints inp (average E)))
      (sortedEndPoints inp (average E)) := by
    rw [hcons]
    rfl
  have hperm : (sortedEndPoints inp (average E)).Perm (toEndPoints inp (average E)) :=
    List.perm_insertionSort _ _
  have heplen : (toEndPoints inp (average E)).length = inp.length :=
    toEndPointsAux_length inp (average E) 0
  have hsortlen : (sortedEndPoints inp (average E)).length =
      (toEndPoints inp (average E)).length := hperm.length_eq
  have hflagslen : (seqFlags (sortedEndPoints inp (average E))).length =
      (sortedEndPoints inp (average E)).length := seqFlags_length _
  have hseqslen : (seqPoints (sortedEndPoints inp (average E))).length =
      (sortedEndPoints inp (average E)).length := by
    rw [seqPoints, mkSeqPoints_length, hflagslen]
  have hlen : (sequence E inp).length = inp.length := by
    rw [hseq, makeSequence, List.length_map, hseqslen, hsortlen, heplen]
  have hstepA : (sequence E inp).map posMS =
      (seqPoints (sortedEndPoints inp (average E))).map
        (fun sp => posMS (inp.getD
          (((sortedEndPoints inp (average E)).getD sp.id EP0).id) [])) := by
    rw [hseq, makeSequence, List.map_map]
    apply List.map_congr_left
    intro sp _
    by_cases hfa : sp.from_a
    · simp only [Function.comp, if_pos hfa]
    · simp only [Function.comp, if_neg hfa]
      exact posMS_reverse _
  have hstepB : (seqPoints (sortedEndPoints inp (average E))).map
      (fun sp => posMS (inp.getD
        (((sortedEndPoints inp (average E)).getD sp.id EP0).id) [])) =
      (sortedEndPoints inp (average E)).map (fun rec => posMS (inp.getD rec.id [])) := by
    rw [seqPoints]
    have hB1 := mkSeqPoints_map_id
      (fun k => posMS (inp.getD (((sortedEndPoints inp (average E)).getD k EP0).id) []))
      (seqFlags (sortedEndPoints inp (average E))) 0
    have hB2 := range'_map_getD (fun rec => posMS (inp.getD rec.id [])) EP0
      (sortedEndPoints inp (average E)) 0 (sortedEndPoints inp (average E))
      (List.drop_zero _)
    refine hB1.trans ?_
    rw [hflagslen]
    exact hB2
  have hstepE : (toEndPoints inp (average E)).map (fun rec => posMS (inp.getD rec.id [])) =
      inp.map posMS := by
    rw [toEndPoints]
    have hE1 := toEndPointsAux_map_id (fun k => posMS (inp.getD k [])) inp (average E) 0
    have hE2 := range'_map_getD posMS ([] : List Pose) inp 0 inp (List.drop_zero _)
    exact hE1.trans hE2
  have hstepD : ((sortedEndPoints inp (average E)).map
      (fun rec => posMS (inp.getD rec.id []))).Perm
      ((toEndPoints inp (average E)).map (fun rec => posMS (inp.getD rec.id []))) :=
    hperm.map _
  have hms : (((sequence E inp).map posMS : List (Multiset R3)) : Multiset (Multiset R3)) =
      ((inp.map posMS : List (Multiset R3)) : Multiset (Multiset R3)) := by
    rw [hstepA, hstepB, ← hstepE]
    exact Multiset.coe_eq_coe.mpr hstepD
  refine ⟨hlen, hms, ?_⟩
  intro s hs
  rw [hseq, makeSequence, List.mem_map] at hs
  obtain ⟨sp, hsp, hpick⟩ := hs
  rw [seqPoints] at hsp
  have hid := mkSeqPoints_mem_id _ 0 sp hsp
  have hidlt : sp.id < (sortedEndPoints inp (average E)).length := by
    rw [← hflagslen]
    omega
  have hrecmem : (sortedEndPoints inp (average E)).getD sp.id EP0 ∈
      sortedEndPoints inp (average E) := getD_mem_of_lt _ EP0 sp.id hidlt
  have hrecmem2 : (sortedEndPoints inp (average E)).getD sp.id EP0 ∈
      toEndPoints inp (average E) := hperm.mem_iff.mp hrecmem
  have hrecid := toEndPointsAux_mem_id inp (average E) 0 _ hrecmem2
  have htmem : inp.getD ((sortedEndPoints inp (average E)).getD sp.id EP0).id [] ∈ inp :=
    getD_mem_of_lt inp [] _ (by omega)
  refine ⟨inp.getD ((sortedEndPoints inp (average E)).getD sp.id EP0).id [], htmem, ?_⟩
  by_cases hfa : sp.from_a
  · left
    rw [← hpick, if_pos hfa]
  · right
    rw [← hpick, if_neg hfa]

/-- Witness for C1 at a one-segment input and a concrete eigen-system. -/
theorem sequence_perm_witness :
    ([[(⟨v3 0 0 0, ⟨0, 0, 0, 1⟩⟩ : Pose)]] : List (List Pose)) ≠ [] ∧
    ((sequence ⟨fun _ => 0, fun _ _ => 0⟩ [[⟨v3 0 0 0, ⟨0, 0, 0, 1⟩⟩]]).length =
        ([[(⟨v3 0 0 0, ⟨0, 0, 0, 1⟩⟩ : Pose)]] : List (List Pose)).length ∧
      (((sequence ⟨fun _ => 0, fun _ _ => 0⟩ [[⟨v3 0 0 0, ⟨0, 0, 0, 1⟩⟩]]).map posMS :
          List (Multiset R3)) : Multiset (Multiset R3)) =
        ((([[(⟨v3 0 0 0, ⟨0, 0, 0, 1⟩⟩ : Pose)]] : List (List Pose)).map posMS :
          List (Multiset R3)) : Multiset (Multiset R3)) ∧
      ∀ s ∈ sequence ⟨fun _ => 0, fun _ _ => 0⟩ [[⟨v3 0 0 0, ⟨0, 0, 0, 1⟩⟩]],
        ∃ t ∈ ([[(⟨v3 0 0 0, ⟨0, 0, 0, 1⟩⟩ : Pose)]] : List (List Pose)),
          s = t ∨ s = reversePathAndPoses t) :=
  ⟨by simp, sequence_perm _ _ (by simp)⟩

theorem greedyFlags_chain :
    ∀ (rest : List PathEndPoints) (prev : PathEndPoints) (fa : Bool) (i : ℕ),
      i + 1 < (prev :: rest).length →
      (((fa :: greedyFlags prev fa rest).getD (i + 1) false = true) ↔
        sq3 ((prev :: rest).getD (i + 1) EP0).a
            (if (fa :: greedyFlags prev fa rest).getD i false
             then ((prev :: rest).getD i EP0).b else ((prev :: rest).getD i EP0).a) <
          sq3 ((prev :: rest).getD (i + 1) EP0).b
            (if (fa :: greedyFlags prev fa rest).getD i false
             then ((prev :: rest).getD i EP0).b else ((prev :: rest).getD i EP0).a)) := by
  intro rest
  induction rest with
  | nil => intro prev fa i h; simp at h
  | cons rec rest2 ih =>
    intro prev fa i h
    cases i with
    | zero =>
      rw [greedyFlags]
      simp only [List.getD_cons_succ, List.getD_cons_zero]
      by_cases hc : sq3 rec.a (if fa then prev.b else prev.a) <
          sq3 rec.b (if fa then prev.b else prev.a)
      · rw [if_pos hc]
        simp [hc]
      · rw [if_neg hc]
        simp [hc]
    | succ i2 =>
      rw [greedyFlags]
      simp only [List.getD_cons_succ]
      refine ih rec _ i2 ?_
      simp only [List.length_cons] at h ⊢
      omega

/-- Claim C6: in `sequence`, after sorting, the first `SequenceStep` is the
first sorted record with `startedAtA = true`; each later flag is true exactly
when the squared distance from the previous step's end position (B if the
previous step started at A, else A) to the record's A endpoint is strictly
smaller than to its B endpoint (so ties go to B). -/
theorem sequence_first_and_greedy (E : EigenSystem) (inp : List (List Pose)) (hne : inp ≠ []) :
    (seqPoints (sortedEndPoints inp (average E))).getD 0 ⟨0, false⟩ = ⟨0, true⟩ ∧
    ∀ i, i + 1 < (sortedEndPoints inp (average E)).length →
      (((seqFlags (sortedEndPoints inp (average E))).getD (i + 1) false = true) ↔
        sq3 ((sortedEndPoints inp (average E)).getD (i + 1) EP0).a
            (if (seqFlags (sortedEndPoints inp (average E))).getD i false
             then ((sortedEndPoints inp (average E)).getD i EP0).b
             else ((sortedEndPoints inp (average E)).getD i EP0).a) <
          sq3 ((sortedEndPoints inp (average E)).getD (i + 1) EP0).b
            (if (seqFlags (sortedEndPoints inp (average E))).getD i false
             then ((sortedEndPoints inp (average E)).getD i EP0).b
             else ((sortedEndPoints inp (average E)).getD i EP0).a)) := by
  obtain ⟨rec0, rest, hs⟩ : ∃ rec0 rest,
      sortedEndPoints inp (average E) = rec0 :: rest := by
    have hlen : (sortedEndPoints inp (average E)).length = inp.length := by
      rw [sortedEndPoints, List.length_insertionSort]
      exact toEndPointsAux_length inp (average E) 0
    have hpos : 0 < (sortedEndPoints inp (average E)).length := by
      rw [hlen]
      exact List.length_pos.mpr hne
    cases hcase : sortedEndPoints inp (average E) with
    | nil => rw [hcase] at hpos; simp at hpos
    | cons a b => exact ⟨a, b, rfl⟩
  rw [hs]
  constructor
  · rfl
  · intro i hi
    simp only [seqFlags]
    exact greedyFlags_chain rest rec0 true i hi

/-- Witness for C6 at a one-segment input and a concrete eigen-system. -/
theorem sequence_first_and_greedy_witness :
    ([[(⟨v3 1 1 1, ⟨0, 0, 0, 1⟩⟩ : Pose)]] : List (List Pose)) ≠ [] ∧
    ((seqPoints (sortedEndPoints [[⟨v3 1 1 1, ⟨0, 0, 0, 1⟩⟩]]
        (average ⟨fun _ => 0, fun _ _ => 0⟩))).getD 0 ⟨0, false⟩ = ⟨0, true⟩ ∧
    ∀ i, i + 1 < (sortedEndPoints [[⟨v3 1 1 1, ⟨0, 0, 0, 1⟩⟩]]
        (average ⟨fun _ => 0, fun _ _ => 0⟩)).length →
      (((seqFlags (sortedEndPoints [[⟨v3 1 1 1, ⟨0, 0, 0, 1⟩⟩]]
          (average ⟨fun _ => 0, fun _ _ => 0⟩))).getD (i + 1) false = true) ↔
        sq3 ((sortedEndPoints [[⟨v3 1 1 1, ⟨0, 0, 0, 1⟩⟩]]
              (average ⟨fun _ => 0, fun _ _ => 0⟩)).getD (i + 1) EP0).a
            (if (seqFlags (sortedEndPoints [[⟨v3 1 1 1, ⟨0, 0, 0, 1⟩⟩]]
                  (average ⟨fun _ => 0, fun _ _ => 0⟩))).getD i false
             then ((sortedEndPoints [[⟨v3 1 1 1, ⟨0, 0, 0, 1⟩⟩]]
                (average ⟨fun _ => 0, fun _ _ => 0⟩)).getD i EP0).b
             else ((sortedEndPoints [[⟨v3 1 1 1, ⟨0, 0, 0, 1⟩⟩]]
                (average ⟨fun _ => 0, fun _ _ => 0⟩)).getD i EP0).a) <
          sq3 ((sortedEndPoints [[⟨v3 1 1 1, ⟨0, 0, 0, 1⟩⟩]]
              (average ⟨fun _ => 0, fun _ _ => 0⟩)).getD (i + 1) EP0).b
            (if (seqFlags (sortedEndPoints [[⟨v3 1 1 1, ⟨0, 0, 0, 1⟩⟩]]
                  (average ⟨fun _ => 0, fun _ _ => 0⟩))).getD i false
             then ((sortedEndPoints [[⟨v3 1 1 1, ⟨0, 0, 0, 1⟩⟩]]
                (average ⟨fun _ => 0, fun _ _ => 0⟩)).getD i EP0).b
             else ((sortedEndPoints [[⟨v3 1 1 1, ⟨0, 0, 0, 1⟩⟩]]
                (average ⟨fun _ => 0, fun _ _ => 0⟩)).getD i EP0).a))) :=
  ⟨by simp, sequence_first_and_greedy ⟨fun _ => 0, fun _ _ => 0⟩ _ (by simp)⟩

theorem sq3_nonneg (u v : R3) : 0 ≤ sq3 u v :=
  Finset.sum_nonneg (fun _ _ => sq_nonneg _)

theorem getD_of_drop_cons {α : Type} (full l : List α) (x d : α) (i : ℕ)
    (h : full.drop i = x :: l) : full.getD i d = x ∧ full.drop (i + 1) = l := by
  constructor
  · have h0 : full[i]? = some x := by
      have := List.getElem?_drop full i 0
      rw [h] at this
      simpa using this.symm
    simp [List.getD_eq_getElem?_getD, h0]
  · have : full.drop (i + 1) = (full.drop i).drop 1 := by rw [List.drop_drop]
    rw [this, h]
    rfl

theorem longestSegmentAux_spec :
    ∀ (ss : List (List Pose)) (i : ℕ) (st : ℕ × ℝ) (full : List (List Pose)),
      full.drop i = ss →
      0 ≤ st.2 →
      (st.2 = endpointSq (full.getD st.1 []) ∨ (st.1 = 0 ∧ st.2 = 0)) →
      (∀ j, j < i → endpointSq (full.getD j []) ≤ st.2) →
      (∀ j, j < st.1 → endpointSq (full.getD j []) < st.2) →
      (st.1 = 0 ∨ st.1 < i) →
      0 ≤ (longestSegmentAux ss i st).2 ∧
      ((longestSegmentAux ss i st).2 =
          endpointSq (full.getD (longestSegmentAux ss i st).1 []) ∨
        ((longestSegmentAux ss i st).1 = 0 ∧ (longestSegmentAux ss i st).2 = 0)) ∧
      (∀ j, j < i + ss.length →
        endpointSq (full.getD j []) ≤ (longestSegmentAux ss i st).2) ∧
      (∀ j, j < (longestSegmentAux ss i st).1 →
        endpointSq (full.getD j []) < (longestSegmentAux ss i st).2) ∧
      ((longestSegmentAux ss i st).1 = 0 ∨ (longestSegmentAux ss i st).1 < i + ss.length) := by
  intro ss
  induction ss with
  | nil =>
    intro i st full _ h0 h1 h2 h3 h4
    rw [longestSegmentAux]
    exact ⟨h0, h1, by simpa using h2, h3, by simpa using h4⟩
  | cons s ss2 ih =>
    intro i st full hdrop h0 h1 h2 h3 h4
    obtain ⟨hsi, hdrop2⟩ := getD_of_drop_cons full ss2 s ([] : List Pose) i hdrop
    rw [longestSegmentAux]
    by_cases hgt : endpointSq s > st.2
    · rw [if_pos hgt]
      have hres := ih (i + 1) (i, endpointSq s) full hdrop2
        (sq3_nonneg _ _)
        (by left; rw [hsi])
        (by
          intro j hj
          rcases Nat.lt_succ_iff_lt_or_eq.mp hj with hj2 | hj2
          · exact le_of_lt (lt_of_le_of_lt (h2 j hj2) hgt)
          · subst hj2
            rw [hsi])
        (by
          intro j hj
          exact lt_of_le_of_lt (h2 j hj) hgt)
        (by right; omega)
      refine ⟨hres.1, hres.2.1, ?_, hres.2.2.2.1, ?_⟩
      · intro j hj
        exact hres.2.2.1 j (by simp only [List.length_cons] at hj ⊢; omega)
      · rcases hres.2.2.2.2 with h | h
        · exact Or.inl h
        · right
          simp only [List.length_cons]
          omega
    · rw [if_neg hgt]
      have hres := ih (i + 1) st full hdrop2 h0 h1
        (by
          intro j hj
          rcases Nat.lt_succ_iff_lt_or_eq.mp hj with hj2 | hj2
          · exact h2 j hj2
          · subst hj2
            rw [hsi]
            exact not_lt.mp hgt)
        h3
        (by omega)
      refine ⟨hres.1, hres.2.1, ?_, hres.2.2.2.1, ?_⟩
      · intro j hj
        exact hres.2.2.1 j (by simp only [List.length_cons] at hj ⊢; omega)
      · rcases hres.2.2.2.2 with h | h
        · exact Or.inl h
        · right
          simp only [List.length_cons]
          omega

/-- Claim C8: `longestSegment` returns a valid index whose squared
first-to-last displacement is maximal, and strictly larger than that of every
earlier index (so the first segment wins ties). -/
theorem longestSegment_spec (segs : List (List Pose)) (hne : segs ≠ []) :
    longestSegment segs < segs.length ∧
    (∀ j, j < segs.length →
      endpointSq (segs.getD j []) ≤ endpointSq (segs.getD (longestSegment segs) [])) ∧
    (∀ j, j < longestSegment segs →
      endpointSq (segs.getD j []) < endpointSq (segs.getD (longestSegment segs) [])) := by
  have h := longestSegmentAux_spec segs 0 (0, 0) segs rfl (le_refl 0)
    (Or.inr ⟨rfl, rfl⟩)
    (by intro j hj; exact absurd hj (by omega))
    (by intro j hj; exact absurd hj (by omega))
    (Or.inl rfl)
  obtain ⟨h0, h1, h2, h3, h4⟩ := h
  have hK : longestSegment segs = (longestSegmentAux segs 0 (0, 0)).1 := rfl
  have hpos : 0 < segs.length := List.length_pos.mpr hne
  refine ⟨?_, ?_, ?_⟩
  · rw [hK]
    rcases h4 with h | h
    · omega
    · omega
  · intro j hj
    rcases h1 with hv | ⟨hz1, hz2⟩
    · rw [hK, ← hv]
      exact h2 j (by omega)
    · rw [hK, hz1]
      exact le_trans (h2 j (by omega)) (by rw [hz2] at h0 ⊢; exact sq3_nonneg _ _)
  · intro j hj
    rcases h1 with hv | ⟨hz1, hz2⟩
    · rw [hK, ← hv]
      exact h3 j (by rw [hK] at hj; exact hj)
    · rw [hK] at hj
      rw [hz1] at hj
      exact absurd hj (by omega)

/-- Witness for C8 at a concrete two-segment input. -/
theorem longestSegment_spec_witness :
    ([[pX 0, pX 1], [pX 0, pX 3]] : List (List Pose)) ≠ [] ∧
    (longestSegment [[pX 0, pX 1], [pX 0, pX 3]] <
        ([[pX 0, pX 1], [pX 0, pX 3]] : List (List Pose)).length ∧
      (∀ j, j < ([[pX 0, pX 1], [pX 0, pX 3]] : List (List Pose)).length →
        endpointSq (([[pX 0, pX 1], [pX 0, pX 3]] : List (List Pose)).getD j []) ≤
          endpointSq (([[pX 0, pX 1], [pX 0, pX 3]] : List (List Pose)).getD
            (longestSegment [[pX 0, pX 1], [pX 0, pX 3]]) [])) ∧
      (∀ j, j < longestSegment [[pX 0, pX 1], [pX 0, pX 3]] →
        endpointSq (([[pX 0, pX 1], [pX 0, pX 3]] : List (List Pose)).getD j []) <
          endpointSq (([[pX 0, pX 1], [pX 0, pX 3]] : List (List Pose)).getD
            (longestSegment [[pX 0, pX 1], [pX 0, pX 3]]) []))) :=
  ⟨by simp, longestSegment_spec _ (by simp)⟩

theorem coeffs_zero (q : Quat4) : coeffs q 0 = q.x := rfl

theorem coeffs_one (q : Quat4) : coeffs q 1 = q.y := rfl

theorem coeffs_two (q : Quat4) : coeffs q 2 = q.z := rfl

theorem coeffs_three (q : Quat4) : coeffs q 3 = q.w := rfl

theorem dot4_coeffs_self (q : Quat4) : dot4 (coeffs q) (coeffs q) = qnormSq q := by
  rw [dot4, Fin.sum_univ_four, coeffs_zero, coeffs_one, coeffs_two, coeffs_three, qnormSq]
  ring

theorem averageMatrix_replicate (q : Quat4) (N : ℕ) (i j : Fin 4) :
    averageMatrix (List.replicate N q) i j = N * (coeffs q i * coeffs q j) := by
  rw [averageMatrix, List.map_replicate, List.sum_replicate, nsmul_eq_mul]

theorem foldl_select_invariant (vals : Fin 4 → ℝ) :
    ∀ (l : List (Fin 4)) (st : Fin 4 × ℝ),
      (0 < st.2 → vals st.1 = st.2) →
      st.2 ≤ (l.foldl (fun st i => if vals i > st.2 then (i, vals i) else st) st).2 ∧
      (0 < (l.foldl (fun st i => if vals i > st.2 then (i, vals i) else st) st).2 →
        vals (l.foldl (fun st i => if vals i > st.2 then (i, vals i) else st) st).1 =
          (l.foldl (fun st i => if vals i > st.2 then (i, vals i) else st) st).2) ∧
      (∀ k ∈ l, vals k ≤
        (l.foldl (fun st i => if vals i > st.2 then (i, vals i) else st) st).2) := by
  intro l
  induction l with
  | nil =>
    intro st hst
    refine ⟨le_refl _, hst, ?_⟩
    intro k hk
    exact absurd hk (by simp)
  | cons a l2 ih =>
    intro st hst
    rw [List.foldl_cons]
    by_cases ha : vals a > st.2
    · rw [if_pos ha]
      have hres := ih (a, vals a) (by intro _; rfl)
      refine ⟨le_trans (le_of_lt ha) hres.1, hres.2.1, ?_⟩
      intro k hk
      rcases List.mem_cons.mp hk with hk | hk
      · subst hk
        exact hres.1
      · exact hres.2.2 k hk
    · rw [if_neg ha]
      have hres := ih st hst
      refine ⟨hres.1, hres.2.1, ?_⟩
      intro k hk
      rcases List.mem_cons.mp hk with hk | hk
      · subst hk
        exact le_trans (not_lt.mp ha) hres.1
      · exact hres.2.2 k hk

theorem selectMaxIdx_pos (vals : Fin 4 → ℝ) (h : ∃ k, 0 < vals k) :
    0 < vals (selectMaxIdx vals) := by
  obtain ⟨k, hk⟩ := h
  have hmem : k ∈ ([0, 1, 2, 3] : List (Fin 4)) := by fin_cases k <;> decide
  have hres := foldl_select_invariant vals [0, 1, 2, 3] (0, 0) (by intro h0; simp at h0)
  have hk2 : 0 <
      (([0, 1, 2, 3] : List (Fin 4)).foldl
        (fun st i => if vals i > st.2 then (i, vals i) else st) (0, 0)).2 :=
    lt_of_lt_of_le hk (hres.2.2 k hmem)
  have := hres.2.1 hk2
  rw [selectMaxIdx, this]
  exact hk2

/-- Core eigen argument: for the matrix accumulated from `N` copies of a unit
quaternion, any valid eigen-decomposition makes `average` return that
quaternion up to sign. -/
theorem average_replicate_pm (q : Quat4) (N : ℕ) (hq : qnormSq q = 1) (hN : 1 ≤ N)
    (E : EigenSystem) (hE : IsEigenDecompOf E (averageMatrix (List.replicate N q))) :
    average E = q ∨ average E = qneg q := by
  obtain ⟨hunit, heig, hsum⟩ := hE
  have htrace1 : ∑ i, averageMatrix (List.replicate N q) i i = (N : ℝ) := by
    rw [Finset.sum_congr rfl (fun i _ => averageMatrix_replicate q N i i), ← Finset.mul_sum]
    rw [show (∑ i, coeffs q i * coeffs q i) = 1 from by
      rw [show (∑ i, coeffs q i * coeffs q i) = dot4 (coeffs q) (coeffs q) from rfl,
        dot4_coeffs_self, hq]]
    rw [mul_one]
  have htrace2 : ∑ i, averageMatrix (List.replicate N q) i i = ∑ k, E.vals k := by
    rw [Finset.sum_congr rfl (fun i _ => hsum i i), Finset.sum_comm]
    apply Finset.sum_congr rfl
    intro k _
    rw [← Finset.mul_sum]
    rw [show (∑ i, E.vecs k i * E.vecs k i) = 1 from hunit k, mul_one]
  have hex : ∃ k, 0 < E.vals k := by
    by_contra hno
    push_neg at hno
    have hsle : ∑ k, E.vals k ≤ 0 := Finset.sum_nonpos (fun k _ => hno k)
    rw [← htrace2, htrace1] at hsle
    have hcast : (1 : ℝ) ≤ N := by exact_mod_cast hN
    linarith
  have hlam : 0 < E.vals (selectMaxIdx E.vals) := selectMaxIdx_pos E.vals hex
  have heq : ∀ i, E.vals (selectMaxIdx E.vals) * E.vecs (selectMaxIdx E.vals) i =
      N * coeffs q i * dot4 (coeffs q) (E.vecs (selectMaxIdx E.vals)) := by
    intro i
    rw [← heig (selectMaxIdx E.vals) i]
    rw [Finset.sum_congr rfl (fun j _ => by rw [averageMatrix_replicate])]
    rw [dot4, Finset.mul_sum]
    apply Finset.sum_congr rfl
    intro j _
    ring
  have hvc : ∀ i, E.vecs (selectMaxIdx E.vals) i =
      (N * dot4 (coeffs q) (E.vecs (selectMaxIdx E.vals)) / E.vals (selectMaxIdx E.vals)) *
        coeffs q i := by
    intro i
    rw [div_mul_eq_mul_div, eq_div_iff (ne_of_gt hlam)]
    have h := heq i
    linear_combination h
  have hdot : dot4 (E.vecs (selectMaxIdx E.vals)) (E.vecs (selectMaxIdx E.vals)) =
      (N * dot4 (coeffs q) (E.vecs (selectMaxIdx E.vals)) / E.vals (selectMaxIdx E.vals)) *
        (N * dot4 (coeffs q) (E.vecs (selectMaxIdx E.vals)) / E.vals (selectMaxIdx E.vals)) *
        qnormSq q := by
    rw [dot4, Finset.sum_congr rfl (fun i _ => by rw [hvc i])]
    rw [show (∑ i, (N * dot4 (coeffs q) (E.vecs (selectMaxIdx E.vals)) /
          E.vals (selectMaxIdx E.vals)) * coeffs q i *
          ((N * dot4 (coeffs q) (E.vecs (selectMaxIdx E.vals)) /
          E.vals (selectMaxIdx E.vals)) * coeffs q i)) =
        (N * dot4 (coeffs q) (E.vecs (selectMaxIdx E.vals)) / E.vals (selectMaxIdx E.vals)) *
        (N * dot4 (coeffs q) (E.vecs (selectMaxIdx E.vals)) / E.vals (selectMaxIdx E.vals)) *
        (∑ i, coeffs q i * coeffs q i) from by
      rw [Finset.mul_sum]
      apply Finset.sum_congr rfl
      intro i _
      ring]
    rw [show (∑ i, coeffs q i * coeffs q i) = dot4 (coeffs q) (coeffs q) from rfl,
      dot4_coeffs_self]
  have hc2 : (N * dot4 (coeffs q) (E.vecs (selectMaxIdx E.vals)) /
      E.vals (selectMaxIdx E.vals)) *
      (N * dot4 (coeffs q) (E.vecs (selectMaxIdx E.vals)) /
      E.vals (selectMaxIdx E.vals)) = 1 := by
    have h1 := hunit (selectMaxIdx E.vals)
    rw [hdot, hq, mul_one] at h1
    exact h1
  have h0 := hvc 0
  have h1 := hvc 1
  have h2 := hvc 2
  have h3 := hvc 3
  rw [coeffs_zero] at h0
  rw [coeffs_one] at h1
  rw [coeffs_two] at h2
  rw [coeffs_three] at h3
  rcases mul_self_eq_one_iff.mp hc2 with hc1 | hc1
  · left
    rw [hc1, one_mul] at h0 h1 h2 h3
    rw [average, h0, h1, h2, h3]
  · right
    rw [hc1] at h0 h1 h2 h3
    rw [average, h0, h1, h2, h3, qneg]
    have hx : -1 * q.x = -q.x := by ring
    have hy : -1 * q.y = -q.y := by ring
    have hz : -1 * q.z = -q.z := by ring
    have hw : -1 * q.w = -q.w := by ring
    rw [hx, hy, hz, hw]

/-- Claim C9: averaging `N ≥ 1` copies of a unit quaternion returns that
quaternion up to sign, whatever valid output the symmetric eigen-solver
produced; in particular a one-element set (`N = 1`) returns its element
unchanged up to sign. -/
theorem average_of_repeated_rotation (q : Quat4) (N : ℕ) (hq : qnormSq q = 1) (hN : 1 ≤ N)
    (E : EigenSystem) (hE : IsEigenDecompOf E (averageMatrix (List.replicate N q))) :
    average E = q ∨ average E = qneg q :=
  average_replicate_pm q N hq hN E hE

theorem averageMatrix_single (q : Quat4) (i j : Fin 4) :
    averageMatrix [q] i j = coeffs q i * coeffs q j := by
  rw [averageMatrix]
  simp

/-- Witness for C9: one copy of the identity quaternion and the standard-basis
eigen-system of its accumulation matrix. -/
theorem average_of_repeated_rotation_witness :
    qnormSq qId = 1 ∧ 1 ≤ 1 ∧
    IsEigenDecompOf
      ⟨fun k => if k = 3 then 1 else 0, fun k i => if i = k then 1 else 0⟩
      (averageMatrix (List.replicate 1 qId)) ∧
    (average ⟨fun k => if k = 3 then 1 else 0, fun k i => if i = k then 1 else 0⟩ = qId ∨
      average ⟨fun k => if k = 3 then 1 else 0, fun k i => if i = k then 1 else 0⟩ =
        qneg qId) := by
  have hq : qnormSq qId = 1 := by rw [qnormSq, qId]; norm_num
  have hdecomp : IsEigenDecompOf
      ⟨fun k => if k = 3 then 1 else 0, fun k i => if i = k then 1 else 0⟩
      (averageMatrix (List.replicate 1 qId)) := by
    refine ⟨?_, ?_, ?_⟩
    · intro k
      fin_cases k <;> simp [dot4, Fin.sum_univ_four]
    · intro k i
      fin_cases k <;> fin_cases i <;>
        simp [Fin.sum_univ_four, averageMatrix_single, coeffs, qId]
    · intro i j
      fin_cases i <;> fin_cases j <;>
        simp [Fin.sum_univ_four, averageMatrix_single, coeffs, qId]
  exact ⟨hq, le_refl 1, hdecomp,
    average_of_repeated_rotation qId 1 hq (le_refl 1) _ hdecomp⟩

theorem sq3_v3 (a b c d e f : ℝ) :
    sq3 (v3 a b c) (v3 d e f) = (a - d) ^ 2 + (b - e) ^ 2 + (c - f) ^ 2 := by
  rw [sq3, Fin.sum_univ_three]
  rfl

theorem v3_eta (v : R3) : v3 (v 0) (v 1) (v 2) = v := by
  funext i
  fin_cases i <;> rfl

theorem qinv_qId : qinv qId = qId := by
  rw [qinv, qId, qconj, qnormSq, qscale]
  norm_num

theorem qinv_qneg_qId : qinv (qneg qId) = qneg qId := by
  rw [qneg, qinv, qId, qconj, qnormSq, qscale]
  norm_num

theorem qrot_qId (v : R3) : qrot qId v = v := by
  have h : qmul (qmul qId ⟨v 0, v 1, v 2, 0⟩) (qconj qId) = ⟨v 0, v 1, v 2, 0⟩ := by
    rw [qId, qconj, qmul, qmul]
    norm_num
  rw [qrot, h]
  exact v3_eta v

theorem qrot_qneg_qId (v : R3) : qrot (qneg qId) v = v := by
  have h : qmul (qmul (qneg qId) ⟨v 0, v 1, v 2, 0⟩) (qconj (qneg qId)) = ⟨v 0, v 1, v 2, 0⟩ := by
    rw [qneg, qId, qconj, qmul, qmul]
    norm_num
  rw [qrot, h]
  exact v3_eta v

theorem qrot_qinv_qId (v : R3) : qrot (qinv qId) v = v := by
  rw [qinv_qId]
  exact qrot_qId v

theorem qrot_qinv_qneg_qId (v : R3) : qrot (qinv (qneg qId)) v = v := by
  rw [qinv_qneg_qId]
  exact qrot_qneg_qId v

theorem endpointSq_seg7a : endpointSq seg7a = 1 := by
  rw [seg7a, endpointSq]
  rw [show (([⟨v3 0 0 0, qId⟩, ⟨v3 1 0 0, qId⟩] : List Pose).getD 0 P0).pos = v3 0 0 0 from rfl]
  rw [show (([⟨v3 0 0 0, qId⟩, ⟨v3 1 0 0, qId⟩] : List Pose).getLastD P0).pos = v3 1 0 0 from rfl]
  rw [sq3_v3]
  norm_num

theorem endpointSq_seg7b : endpointSq seg7b = 1 := by
  rw [seg7b, endpointSq]
  rw [show (([⟨v3 0 1 0, qId⟩, ⟨v3 1 1 0, qId⟩] : List Pose).getD 0 P0).pos = v3 0 1 0 from rfl]
  rw [show (([⟨v3 0 1 0, qId⟩, ⟨v3 1 1 0, qId⟩] : List Pose).getLastD P0).pos = v3 1 1 0 from rfl]
  rw [sq3_v3]
  norm_num

theorem endpointSq_seg7c : endpointSq seg7c = 1 := by
  rw [seg7c, endpointSq]
  rw [show (([⟨v3 0 2 0, qId⟩, ⟨v3 1 2 0, qId⟩] : List Pose).getD 0 P0).pos = v3 0 2 0 from rfl]
  rw [show (([⟨v3 0 2 0, qId⟩, ⟨v3 1 2 0, qId⟩] : List Pose).getLastD P0).pos = v3 1 2 0 from rfl]
  rw [sq3_v3]
  norm_num

theorem longestSegment_inp7 : longestSegment inp7 = 0 := by
  rw [inp7, longestSegment]
  rw [longestSegmentAux, longestSegmentAux, longestSegmentAux, longestSegmentAux]
  rw [endpointSq_seg7a, endpointSq_seg7b, endpointSq_seg7c]
  rw [if_pos (by norm_num : (1 : ℝ) > 0)]
  rw [if_neg (by norm_num : ¬(1 : ℝ) > 1), if_neg (by norm_num : ¬(1 : ℝ) > 1)]

theorem averageQuaternionInput_inp7 : averageQuaternionInput inp7 = List.replicate 2 qId := by
  rw [averageQuaternionInput, longestSegment_inp7]
  rfl

theorem sequence_pipeline_inp7 (qq : Quat4) (hrot : ∀ v : R3, qrot (qinv qq) v = v) :
    makeSequence inp7 (seqPoints (sortedEndPoints inp7 qq)) (sortedEndPoints inp7 qq) =
      [seg7a, reversePathAndPoses seg7b, seg7c] := by
  have hep : toEndPoints inp7 qq =
      [⟨v3 0 0 0, v3 1 0 0, 0⟩, ⟨v3 0 1 0, v3 1 1 0, 1⟩, ⟨v3 0 2 0, v3 1 2 0, 2⟩] := by
    rw [inp7, toEndPoints]
    simp only [toEndPointsAux, hrot]
    rfl
  have hm0 : minY ⟨v3 0 0 0, v3 1 0 0, 0⟩ = 0 := by
    rw [minY, show ((⟨v3 0 0 0, v3 1 0 0, 0⟩ : PathEndPoints).a 1) = (0 : ℝ) from rfl,
      show ((⟨v3 0 0 0, v3 1 0 0, 0⟩ : PathEndPoints).b 1) = (0 : ℝ) from rfl]
    norm_num
  have hm1 : minY ⟨v3 0 1 0, v3 1 1 0, 1⟩ = 1 := by
    rw [minY, show ((⟨v3 0 1 0, v3 1 1 0, 1⟩ : PathEndPoints).a 1) = (1 : ℝ) from rfl,
      show ((⟨v3 0 1 0, v3 1 1 0, 1⟩ : PathEndPoints).b 1) = (1 : ℝ) from rfl]
    norm_num
  have hm2 : minY ⟨v3 0 2 0, v3 1 2 0, 2⟩ = 2 := by
    rw [minY, show ((⟨v3 0 2 0, v3 1 2 0, 2⟩ : PathEndPoints).a 1) = (2 : ℝ) from rfl,
      show ((⟨v3 0 2 0, v3 1 2 0, 2⟩ : PathEndPoints).b 1) = (2 : ℝ) from rfl]
    norm_num
  have hsorted : sortedEndPoints inp7 qq =
      [⟨v3 0 0 0, v3 1 0 0, 0⟩, ⟨v3 0 1 0, v3 1 1 0, 1⟩, ⟨v3 0 2 0, v3 1 2 0, 2⟩] := by
    rw [sortedEndPoints, hep]
    rw [List.insertionSort_cons (r := fun u v => minY u ≤ minY v) (by
      intro b hb
      rcases List.mem_cons.mp hb with hb | hb
      · subst hb
        rw [hm0, hm1]
        norm_num
      · rcases List.mem_cons.mp hb with hb | hb
        · subst hb
          rw [hm0, hm2]
          norm_num
        · exact absurd hb (by simp))]
    rw [List.insertionSort_cons (r := fun u v => minY u ≤ minY v) (by
      intro b hb
      rcases List.mem_cons.mp hb with hb | hb
      · subst hb
        rw [hm1, hm2]
        norm_num
      · exact absurd hb (by simp))]
    rfl
  have hC1 : ¬(sq3 (v3 0 1 0) (v3 1 0 0) < sq3 (v3 1 1 0) (v3 1 0 0)) := by
    rw [sq3_v3, sq3_v3]
    norm_num
  have hC2 : sq3 (v3 0 2 0) (v3 0 1 0) < sq3 (v3 1 2 0) (v3 0 1 0) := by
    rw [sq3_v3, sq3_v3]
    norm_num
  have hflags : seqFlags [⟨v3 0 0 0, v3 1 0 0, 0⟩, ⟨v3 0 1 0, v3 1 1 0, 1⟩,
      ⟨v3 0 2 0, v3 1 2 0, 2⟩] = [true, false, true] := by
    simp only [seqFlags, greedyFlags]
    simp [hC1, hC2]
  have hseqpts : seqPoints [⟨v3 0 0 0, v3 1 0 0, 0⟩, ⟨v3 0 1 0, v3 1 1 0, 1⟩,
      ⟨v3 0 2 0, v3 1 2 0, 2⟩] = [⟨0, true⟩, ⟨1, false⟩, ⟨2, true⟩] := by
    rw [seqPoints, hflags]
    rfl
  rw [hsorted, hseqpts, makeSequence]
  rfl

theorem averageMatrix_pair (q p : Quat4) (i j : Fin 4) :
    averageMatrix [q, p] i j = coeffs q i * coeffs q j + coeffs p i * coeffs p j := by
  rw [averageMatrix]
  simp

/-- Claim C7: on the spec's three straight two-point segments (identity
orientations), `sequence` returns seg0 kept forward, seg1 reversed, seg2 kept
forward, for every valid eigen-solver output. -/
theorem sequence_concrete_scenario (E : EigenSystem)
    (hE : IsEigenDecompOf E (averageMatrix (averageQuaternionInput inp7))) :
    sequence E inp7 = [seg7a, reversePathAndPoses seg7b, seg7c] := by
  have hE2 : IsEigenDecompOf E (averageMatrix (List.replicate 2 qId)) := by
    rw [← averageQuaternionInput_inp7]
    exact hE
  have havg := average_replicate_pm qId 2 (by rw [qnormSq, qId]; norm_num) (by norm_num) E hE2
  have hseq : sequence E inp7 =
      makeSequence inp7 (seqPoints (sortedEndPoints inp7 (average E)))
        (sortedEndPoints inp7 (average E)) := by
    rw [inp7]
    rfl
  rcases havg with h | h
  · rw [hseq, h]
    exact sequence_pipeline_inp7 qId qrot_qinv_qId
  · rw [hseq, h]
    exact sequence_pipeline_inp7 (qneg qId) qrot_qinv_qneg_qId

/-- Witness for C7 with a concrete eigen-system for the accumulated matrix of
the longest segment's two identity rotations. -/
theorem sequence_concrete_scenario_witness :
    IsEigenDecompOf ⟨fun k => if k = 3 then 2 else 0, fun k i => if i = k then 1 else 0⟩
      (averageMatrix (averageQuaternionInput inp7)) ∧
    sequence ⟨fun k => if k = 3 then 2 else 0, fun k i => if i = k then 1 else 0⟩ inp7 =
      [seg7a, reversePathAndPoses seg7b, seg7c] := by
  have hdecomp : IsEigenDecompOf
      ⟨fun k => if k = 3 then 2 else 0, fun k i => if i = k then 1 else 0⟩
      (averageMatrix (averageQuaternionInput inp7)) := by
    rw [averageQuaternionInput_inp7]
    refine ⟨?_, ?_, ?_⟩
    · intro k
      fin_cases k <;> simp [dot4, Fin.sum_univ_four]
    · intro k i
      fin_cases k <;> fin_cases i <;>
        (simp [Fin.sum_univ_four, averageMatrix_pair, coeffs, qId]; try norm_num)
    · intro i j
      fin_cases i <;> fin_cases j <;>
        (simp [Fin.sum_univ_four, averageMatrix_pair, coeffs, qId]; try norm_num)
  exact ⟨hdecomp, sequence_concrete_scenario _ hdecomp⟩

end GodelNoether
